import Mathlib

/-!
Verification of gork, a Z-machine (version 3) interpreter.

A shallow embedding of the memory model, the sequential cursor, the text
codec, the call stack and the branch / call / return handlers of
`src/gork`, together with theorems about them.

Conventions of the embedding.

* Machine integers are natural numbers; every Go conversion or arithmetic
  operation that can leave the range of its type is followed by the matching
  reduction (`byte`, `uint16`, `uint32`).
* A Go run-time panic (index out of range, `panic(...)`, `log.Fatal`) is the
  result `none`; a normal return is `some`.
* Pointer receivers become explicit state passing: a method that mutates its
  receiver returns the new receiver next to its result.
* `logger.Printf` calls only produce diagnostics and are left out.
-/

namespace Gork

/-! ## Machine integers -/

/-- Go conversion to `byte` / `uint8`: reduction modulo `2^8`. -/
def byte (n : Nat) : Nat := n % 256

/-- Go conversion to `uint16`: reduction modulo `2^16`. -/
def uint16 (n : Nat) : Nat := n % 65536

/-- Go conversion to `uint32`: reduction modulo `2^32`. -/
def uint32 (n : Nat) : Nat := n % 4294967296

/-! ## zmemory.go: memory -/

/-- Go `type ZMemory []byte`: the buffer as the list of its byte values. -/
abbrev ZMemory := List Nat

/-- A buffer is well formed when each of its elements is a byte. -/
def ValidMem (mem : ZMemory) : Prop := ∀ b ∈ mem, b < 256

instance (mem : ZMemory) : Decidable (ValidMem mem) := by
  unfold ValidMem; infer_instance

/-- Source: `func (zmem *ZMemory) ByteAt(addr uint32) byte` -/
def ByteAt (zmem : ZMemory) (addr : Nat) : Option Nat :=
  zmem[addr]?

/-- Source: `func (zmem *ZMemory) WordAt(addr uint32) uint16`, big endian. -/
def WordAt (zmem : ZMemory) (addr : Nat) : Option Nat := do
  let b0 ← zmem[addr]?
  let b1 ← zmem[uint32 (addr + 1)]?
  pure (uint16 (uint16 b0 <<< 8) ||| uint16 b1)

/-- Source: `func (zmem *ZMemory) UInt32At(addr uint32) uint32`, big endian. -/
def UInt32At (zmem : ZMemory) (addr : Nat) : Option Nat := do
  let b0 ← zmem[addr]?
  let b1 ← zmem[uint32 (addr + 1)]?
  let b2 ← zmem[uint32 (addr + 2)]?
  let b3 ← zmem[uint32 (addr + 3)]?
  pure (uint32 (uint32 b0 <<< 24) ||| uint32 (uint32 b1 <<< 16) |||
    uint32 (uint32 b2 <<< 8) ||| uint32 b3)

/-- Source: `func (zmem *ZMemory) WriteByteAt(addr uint32, val byte)` -/
def WriteByteAt (zmem : ZMemory) (addr : Nat) (val : Nat) : Option ZMemory :=
  if addr < zmem.length then some (zmem.set addr val) else none

/-- Source: `func (zmem *ZMemory) WriteWordAt(addr uint32, val uint16)` -/
def WriteWordAt (zmem : ZMemory) (addr : Nat) (val : Nat) : Option ZMemory := do
  let m1 ← WriteByteAt zmem addr (byte (val >>> 8))
  WriteByteAt m1 (uint32 (addr + 1)) (byte (val &&& 0x00FF))

/-! ## zmemory.go: sequential cursor -/

/-- Source: `type ZMemorySequential struct { mem *ZMemory; pos uint32 }` -/
structure ZMemorySequential where
  mem : ZMemory
  pos : Nat
  deriving DecidableEq, Repr

/-- Source: `func (zmem *ZMemory) GetSequential(addr uint32) *ZMemorySequential` -/
def GetSequential (zmem : ZMemory) (addr : Nat) : ZMemorySequential :=
  { mem := zmem, pos := addr }

/-- Source: `func (zmem *ZMemorySequential) PeekByte() byte` -/
def PeekByte (zmem : ZMemorySequential) : Option (Nat × ZMemorySequential) := do
  let v ← ByteAt zmem.mem zmem.pos
  pure (v, zmem)

/-- Source: `func (zmem *ZMemorySequential) PeekWord() uint16` -/
def PeekWord (zmem : ZMemorySequential) : Option (Nat × ZMemorySequential) := do
  let v ← WordAt zmem.mem zmem.pos
  pure (v, zmem)

/-- Source: `func (zmem *ZMemorySequential) PeekUInt32() uint32` -/
def PeekUInt32 (zmem : ZMemorySequential) : Option (Nat × ZMemorySequential) := do
  let v ← UInt32At zmem.mem zmem.pos
  pure (v, zmem)

/-- Source: `func (zmem *ZMemorySequential) ReadByte() byte` -/
def ReadByte (zmem : ZMemorySequential) : Option (Nat × ZMemorySequential) := do
  let tmp ← ByteAt zmem.mem zmem.pos
  pure (tmp, { zmem with pos := uint32 (zmem.pos + 1) })

/-- Source: `func (zmem *ZMemorySequential) ReadWord() uint16` -/
def ReadWord (zmem : ZMemorySequential) : Option (Nat × ZMemorySequential) := do
  let tmp ← WordAt zmem.mem zmem.pos
  pure (tmp, { zmem with pos := uint32 (zmem.pos + 2) })

/-- Source: `func (zmem *ZMemorySequential) ReadUint32() uint32` -/
def ReadUint32 (zmem : ZMemorySequential) : Option (Nat × ZMemorySequential) := do
  let tmp ← UInt32At zmem.mem zmem.pos
  pure (tmp, { zmem with pos := uint32 (zmem.pos + 4) })

/-- Source: `func (zmem *ZMemorySequential) WriteByte(b byte)` -/
def WriteByte (zmem : ZMemorySequential) (b : Nat) : Option ZMemorySequential := do
  let m ← WriteByteAt zmem.mem zmem.pos b
  pure { mem := m, pos := uint32 (zmem.pos + 1) }

/-- Source: `func (zmem *ZMemorySequential) WriteWord(w uint16)` -/
def WriteWord (zmem : ZMemorySequential) (w : Nat) : Option ZMemorySequential := do
  let m ← WriteWordAt zmem.mem zmem.pos w
  pure { mem := m, pos := uint32 (zmem.pos + 2) }

/-- Source: `func PackedAddress(addr uint32) uint32` -/
def PackedAddress (addr : Nat) : Nat := uint32 (addr * 2)

/-- Source: `func IsPackedAddress(addr uint32) bool` -/
def IsPackedAddress (addr : Nat) : Bool := addr % 2 == 0

/-! ## zroutine.go, zmachine.go: frames, call stack, machine -/

/-- Go conversion of a 16-bit pattern to `int16` (two's complement), which
`int32(...)` then sign-extends without changing the value. -/
def int16 (n : Nat) : Int :=
  if n % 65536 < 32768 then (n % 65536 : Nat) else ((n % 65536 : Nat) : Int) - 65536

/-- Source: `type ZRoutine struct { addr uint32; retAddr uint32; locals []uint16 }` -/
structure ZRoutine where
  addr : Nat
  retAddr : Nat
  locals : List Nat
  deriving DecidableEq, Repr

/-- Source: `type ZStack []*ZRoutine`: bottom at index 0, top at index `len-1`. -/
abbrev ZStack := List ZRoutine

/-- Source: `func (zstack *ZStack) Push(routine *ZRoutine)` -/
def ZStack.Push (zstack : ZStack) (routine : ZRoutine) : ZStack :=
  zstack ++ [routine]

/-- Source: `func (zstack *ZStack) Pop() *ZRoutine`. On the empty stack `last` is
`-1` and the index panics; there the truncated `0 - 1 = 0` is out of range
as well. -/
def ZStack.Pop (zstack : ZStack) : Option (ZRoutine × ZStack) := do
  let last := zstack.length - 1
  let ret ← zstack[last]?
  pure (ret, zstack.take last)

/-- Source: `func (zstack *ZStack) Top() *ZRoutine` -/
def ZStack.Top (zstack : ZStack) : Option ZRoutine :=
  zstack[zstack.length - 1]?

/-- An assignment through the pointer returned by `Top()`: the frame at
index `len-1` is replaced. -/
def ZStack.setTop (zstack : ZStack) (routine : ZRoutine) : ZStack :=
  zstack.set (zstack.length - 1) routine

/-- Modelled from the spec: `ZHeader` is declared outside `src/`. The core
reads three fields of it: the entry point, the global-variable table base
address and the abbreviation table base address. They are 16-bit values
(`abbrTblPos` is added to `uint16` operands in `DecodeZString`). -/
structure ZHeader where
  pc : Nat
  globalsPos : Nat
  abbrTblPos : Nat
  deriving DecidableEq, Repr

/-- Source: `type ZMachine struct`. The fields `objects`, `dictionary`, `iodev` and
`logger` are not read or written by the functions embedded here. -/
structure ZMachine where
  header : ZHeader
  seq : ZMemorySequential
  stack : ZStack
  quitted : Bool
  deriving DecidableEq, Repr

/-- The loop of `NewZRoutine`:
`for i := byte(0); i < numLocals; i++ { routine.locals[i] = seq.ReadWord() }`,
with `n` the number of iterations left. -/
def readLocals : Nat → Nat → List Nat → ZMemorySequential →
    Option (List Nat × ZMemorySequential)
  | 0, _, locals, seq => some (locals, seq)
  | n + 1, i, locals, seq => do
    let (w, seq1) ← ReadWord seq
    if i < locals.length then readLocals n (i + 1) (locals.set i w) seq1 else none

/-- Source: `func NewZRoutine(seq *ZMemorySequential, retAddr uint32) *ZRoutine` -/
def NewZRoutine (seq : ZMemorySequential) (retAddr : Nat) :
    Option (ZRoutine × ZMemorySequential) :=
  if !IsPackedAddress seq.pos then
    none
  else do
    let addr := seq.pos
    let (numLocals, seq1) ← ReadByte seq
    let (locals, seq2) ← readLocals numLocals 0 (List.replicate numLocals 0) seq1
    pure ({ addr := addr, retAddr := retAddr, locals := locals }, seq2)

/-- The address of global variable `varnum`:
`uint32(zm.header.globalsPos) + uint32(varnum-0x10)*2`. -/
def globalAddr (zm : ZMachine) (varnum : Nat) : Nat :=
  uint32 (uint32 zm.header.globalsPos + uint32 (uint32 (byte (varnum - 0x10)) * 2))

/-- Source: `func (zm *ZMachine) GetVarAt(varnum byte) uint16`. The machine is
returned next to the value: the read changes nothing. -/
def GetVarAt (zm : ZMachine) (varnum : Nat) : Option (Nat × ZMachine) :=
  if varnum == 0 then do
    let top ← ZStack.Top zm.stack
    let v ← top.locals[top.locals.length - 1]?
    pure (v, zm)
  else if varnum < 0x10 then do
    let top ← ZStack.Top zm.stack
    let v ← top.locals[varnum - 1]?
    pure (v, zm)
  else do
    let v ← WordAt zm.seq.mem (globalAddr zm varnum)
    pure (v, zm)

/-- Source: `func (zm *ZMachine) StoreVarAt(varnum byte, val uint16)` -/
def StoreVarAt (zm : ZMachine) (varnum : Nat) (val : Nat) : Option ZMachine :=
  if varnum == 0 then do
    let top ← ZStack.Top zm.stack
    pure { zm with stack := ZStack.setTop zm.stack { top with locals := top.locals ++ [val] } }
  else if varnum < 0x10 then do
    let top ← ZStack.Top zm.stack
    if varnum - 1 < top.locals.length then
      pure { zm with
        stack := ZStack.setTop zm.stack { top with locals := top.locals.set (varnum - 1) val } }
    else none
  else do
    let mem ← WriteWordAt zm.seq.mem (globalAddr zm varnum) val
    pure { zm with seq := { zm.seq with mem := mem } }

/-- Source: `func (zm *ZMachine) StoreReturn(val uint16)` -/
def StoreReturn (zm : ZMachine) (val : Nat) : Option ZMachine := do
  let (varnum, seq1) ← ReadByte zm.seq
  StoreVarAt { zm with seq := seq1 } varnum val

/-- Source: `func ZReturn(zm *ZMachine, retValue uint16)` (zoptable.go) -/
def ZReturn (zm : ZMachine) (retValue : Nat) : Option ZMachine := do
  let (frame, rest) ← ZStack.Pop zm.stack
  StoreReturn { zm with stack := rest, seq := { zm.seq with pos := frame.retAddr } } retValue

/-- Source: `func ZReturnFalse(zm *ZMachine)` -/
def ZReturnFalse (zm : ZMachine) : Option ZMachine :=
  ZReturn zm (uint16 0)

/-- Source: `func ZReturnTrue(zm *ZMachine)` -/
def ZReturnTrue (zm : ZMachine) : Option ZMachine :=
  ZReturn zm (uint16 1)

/-- Source: `func (zm *ZMachine) CalcJumpAddress(offset int32) uint32`:
`uint32(int64(zm.seq.pos) + int64(offset) - 2)`. -/
def CalcJumpAddress (zm : ZMachine) (offset : Int) : Nat :=
  (((zm.seq.pos : Int) + offset - 2) % 4294967296).toNat

/-- The offset decoding of `Branch`, after the descriptor byte `info` has
been read: the offset (an `int32`) and the machine after the optional second
byte. The bitwise or of the two `int16` operands acts on their bit patterns. -/
def branchOffset (zm : ZMachine) (info : Nat) : Option (Int × ZMachine) :=
  if info &&& 0x40 != 0x00 then
    pure ((info &&& 0x3F : Nat), zm)
  else do
    let firstPart := uint16 (info &&& 0x3F)
    let firstPart := if firstPart &&& 0x20 != 0x00 then firstPart ||| (0x3 <<< 6) else firstPart
    let (low, seq1) ← ReadByte zm.seq
    pure (int16 (uint16 (firstPart <<< 8) ||| low), { zm with seq := seq1 })

/-- Source: `func (zm *ZMachine) Branch(conditionOk bool)` -/
def Branch (zm : ZMachine) (conditionOk : Bool) : Option ZMachine := do
  let (info, seq1) ← ReadByte zm.seq
  let branchOnTrue := (info >>> 7) != 0x00
  let (offset, zm2) ← branchOffset { zm with seq := seq1 } info
  if conditionOk == branchOnTrue then
    if offset == 0 then
      ZReturnFalse zm2
    else if offset == 1 then
      ZReturnTrue zm2
    else
      pure { zm2 with seq := { zm2.seq with pos := CalcJumpAddress zm2 offset } }
  else
    pure zm2

/-- The loop of `ZCall`: `for i, v := range operands[1:] { routine.locals[i] = v }`. -/
def copyOperands : List Nat → Nat → List Nat → Option (List Nat)
  | [], _, locals => some locals
  | v :: rest, i, locals =>
    if i < locals.length then copyOperands rest (i + 1) (locals.set i v) else none

/-- Source: `func ZCall(zm *ZMachine, operands []uint16)` (zoptable.go). The operand
is widened from `uint16` to the `uint32` parameter of `PackedAddress`; the
frame written through `routine` is the one just pushed, the top. -/
def ZCall (zm : ZMachine) (operands : List Nat) : Option ZMachine := do
  let op0 ← operands[0]?
  let routineAddr := PackedAddress op0
  let retAddr := zm.seq.pos
  let (routine, seq1) ← NewZRoutine { zm.seq with pos := routineAddr } retAddr
  let zm1 := { zm with seq := seq1, stack := ZStack.Push zm.stack routine }
  if routineAddr == 0 then
    ZReturnFalse zm1
  else if operands.length > 1 then do
    let locals ← copyOperands (operands.drop 1) 0 routine.locals
    pure { zm1 with stack := ZStack.setTop zm1.stack { routine with locals := locals } }
  else
    pure zm1

/-! ## zmachine.go: UpdateVarAt, sequences of variable operations -/

/-- Go conversion of a signed value to `uint16`: its residue modulo `2^16`.
The `int16` sum `int16(x) + val` wraps to the same residue as the exact sum. -/
def uint16OfInt (i : Int) : Nat := (i % 65536).toNat

/-- Source: `func (zm *ZMachine) UpdateVarAt(varnum byte, val int16) uint16`: the
new value and the machine afterwards. -/
def UpdateVarAt (zm : ZMachine) (varnum : Nat) (val : Int) : Option (Nat × ZMachine) :=
  if varnum == 0 then do
    let top ← ZStack.Top zm.stack
    let old ← top.locals[top.locals.length - 1]?
    let newValue := uint16OfInt (int16 old + val)
    pure (newValue, { zm with
      stack := ZStack.setTop zm.stack
        { top with locals := top.locals.set (top.locals.length - 1) newValue } })
  else if varnum < 0x10 then do
    let top ← ZStack.Top zm.stack
    let old ← top.locals[varnum - 1]?
    let newValue := uint16 (old + uint16OfInt val)
    pure (newValue, { zm with
      stack := ZStack.setTop zm.stack { top with locals := top.locals.set (varnum - 1) newValue } })
  else do
    let old ← WordAt zm.seq.mem (globalAddr zm varnum)
    let newValue := uint16 (old + uint16OfInt val)
    let mem ← WriteWordAt zm.seq.mem (globalAddr zm varnum) newValue
    pure (newValue, { zm with seq := { zm.seq with mem := mem } })

/-- A variable operation of the interpreter, on the variable `varnum`. -/
inductive VarOp where
  | get (varnum : Nat)
  | store (varnum : Nat) (val : Nat)
  | update (varnum : Nat) (val : Int)
  deriving DecidableEq, Repr

/-- The variable number an operation addresses. -/
def VarOp.varnum : VarOp → Nat
  | .get n => n
  | .store n _ => n
  | .update n _ => n

/-- One variable operation: the machine it leaves. -/
def applyVarOp (zm : ZMachine) : VarOp → Option ZMachine
  | .get n => (GetVarAt zm n).map (fun r => r.2)
  | .store n v => StoreVarAt zm n v
  | .update n d => (UpdateVarAt zm n d).map (fun r => r.2)

/-- A sequence of variable operations, one after the other. -/
def runVarOps : ZMachine → List VarOp → Option ZMachine
  | zm, [] => some zm
  | zm, op :: rest => do
    let zm1 ← applyVarOp zm op
    runVarOps zm1 rest

/-- The machine `zm` with the call stack `st` below the top frame `top`
holding the value sequence `locals`. -/
def onFrame (zm : ZMachine) (st : ZStack) (top : ZRoutine) (locals : List Nat) : ZMachine :=
  { zm with stack := st ++ [{ top with locals := locals }] }

/-! ## zoptable.go: arithmetic and stack handlers -/

/-- Source: `func ZAdd(zm *ZMachine, lhs uint16, rhs uint16)` -/
def ZAdd (zm : ZMachine) (lhs rhs : Nat) : Option ZMachine :=
  StoreReturn zm (uint16 (lhs + rhs))

/-- Source: `func ZSub(zm *ZMachine, lhs uint16, rhs uint16)`; the `uint16`
difference of two 16-bit operands is `lhs + 2^16 - rhs` reduced. -/
def ZSub (zm : ZMachine) (lhs rhs : Nat) : Option ZMachine :=
  StoreReturn zm (uint16 (lhs + 65536 - rhs))

/-- Source: `func ZMul(zm *ZMachine, lhs uint16, rhs uint16)` -/
def ZMul (zm : ZMachine) (lhs rhs : Nat) : Option ZMachine :=
  StoreReturn zm (uint16 (lhs * rhs))

/-- The two assignments of `WriteWordAt`, with the buffer a panic leaves
behind: unchanged when the first index is out of range, with the high byte
written when the second one is. -/
def WriteWordAtE (zmem : ZMemory) (addr : Nat) (val : Nat) : Except ZMemory ZMemory :=
  if addr < zmem.length then
    let m1 := zmem.set addr (byte (val >>> 8))
    if uint32 (addr + 1) < m1.length then
      .ok (m1.set (uint32 (addr + 1)) (byte (val &&& 0x00FF)))
    else .error m1
  else .error zmem

/-- `StoreVarAt` with the machine a panic leaves behind (`Except.error`). -/
def StoreVarAtE (zm : ZMachine) (varnum : Nat) (val : Nat) : Except ZMachine ZMachine :=
  if varnum == 0 then
    match ZStack.Top zm.stack with
    | none => .error zm
    | some top =>
      .ok { zm with stack := ZStack.setTop zm.stack { top with locals := top.locals ++ [val] } }
  else if varnum < 0x10 then
    match ZStack.Top zm.stack with
    | none => .error zm
    | some top =>
      if varnum - 1 < top.locals.length then
        .ok { zm with
          stack := ZStack.setTop zm.stack { top with locals := top.locals.set (varnum - 1) val } }
      else .error zm
  else
    match WriteWordAtE zm.seq.mem (globalAddr zm varnum) val with
    | .ok mem => .ok { zm with seq := { zm.seq with mem := mem } }
    | .error mem => .error { zm with seq := { zm.seq with mem := mem } }

/-- `StoreReturn` with the machine a panic leaves behind: `ReadByte` panics
before it advances the cursor. -/
def StoreReturnE (zm : ZMachine) (val : Nat) : Except ZMachine ZMachine :=
  match ReadByte zm.seq with
  | none => .error zm
  | some (varnum, seq1) => StoreVarAtE { zm with seq := seq1 } varnum val

/-- Source: `func ZDiv(zm *ZMachine, lhs uint16, rhs uint16)`. The result is the
machine after the handler, or (`Except.error`) the machine as the panic
leaves it. -/
def ZDiv (zm : ZMachine) (lhs rhs : Nat) : Except ZMachine ZMachine :=
  if rhs == 0 then
    .error zm
  else
    StoreReturnE zm (uint16 (lhs / rhs))

/-- Source: `func ZMod(zm *ZMachine, lhs uint16, rhs uint16)`, as `ZDiv`. -/
def ZMod (zm : ZMachine) (lhs rhs : Nat) : Except ZMachine ZMachine :=
  if rhs == 0 then
    .error zm
  else
    StoreReturnE zm (uint16 (lhs % rhs))

/-- Source: `func ZPush(zm *ZMachine, args []uint16)` -/
def ZPush (zm : ZMachine) (args : List Nat) : Option ZMachine := do
  let top ← ZStack.Top zm.stack
  let a0 ← args[0]?
  pure { zm with stack := ZStack.setTop zm.stack { top with locals := top.locals ++ [a0] } }

/-- Source: `func ZPull(zm *ZMachine, args []uint16)`:
`*topLocals = append((*topLocals)[:varnum], (*topLocals)[varnum:]...)` with
`varnum := byte(args[0]) - 1`. The slice expression `[varnum:]` panics when
`varnum` exceeds the length; `append` then copies the tail `[varnum:]` behind
the prefix `[:varnum]`. -/
def ZPull (zm : ZMachine) (args : List Nat) : Option ZMachine := do
  let a0 ← args[0]?
  let varnum := byte (byte a0 + 255)
  let top ← ZStack.Top zm.stack
  if varnum ≤ top.locals.length then
    pure { zm with
      stack := ZStack.setTop zm.stack
        { top with locals := top.locals.take varnum ++ top.locals.drop varnum } }
  else none

/-! ## zmemory.go: text codec -/

/-- Source: `const encodedZstringLen int = 2`: number of words, not characters. -/
def encodedZstringLen : Nat := 2

/-- Source: `var Alphabets = [3]string{...}`, each row as the list of its bytes. -/
def Alphabets : List (List Nat) :=
  ["abcdefghijklmnopqrstuvwxyz".toList.map Char.toNat,
   "ABCDEFGHIJKLMNOPQRSTUVWXYZ".toList.map Char.toNat,
   " \n0123456789.,!?_#\x27\"/\\-:()".toList.map Char.toNat]

/-- Row `n` of `Alphabets`, for the constant indices `Alphabets[0]` and
`Alphabets[2]` of `ZStringEncode`. -/
def alphabetRow (n : Nat) : List Nat := Alphabets.getD n []

/-- Go `string(x)` of an integer `x`: the text consisting of the code point
`x`, or of U+FFFD when `x` is not a valid code point. Decoded text is
represented by its sequence of code points. -/
def runeOf (x : Nat) : Nat :=
  if (0xD800 ≤ x ∧ x ≤ 0xDFFF) ∨ 0x10FFFF < x then 0xFFFD else x

/-- The variables of `DecodeZString` that live across the codes of a string. -/
structure DecState where
  ret : List Nat
  alphabet : Nat
  shiftLock : Nat
  synonimFlag : Bool
  synonim : Nat
  asciiPart : Nat
  asciiFirstPart : Nat
  deriving DecidableEq, Repr

/-- The initial values of the variables of `DecodeZString`. -/
def DecState.init : DecState :=
  { ret := [], alphabet := 0, shiftLock := 0, synonimFlag := false, synonim := 0,
    asciiPart := 0, asciiFirstPart := 0 }

/-- The body of the inner loop of `DecodeZString` for one 5-bit `code`;
`decodeAt addr` stands for `zmem.mem.DecodeZStringAt(addr, header)`. -/
def decodeCode (decodeAt : Nat → Option (List Nat)) (header : ZHeader) (mem : ZMemory)
    (st : DecState) (code : Nat) : Option DecState :=
  if st.synonimFlag then do
    let synonim := uint16 (uint16 (st.synonim + 65535) * 64)
    let w ← WordAt mem (uint32 (uint16 (uint16 (header.abbrTblPos + synonim) + uint16 (code * 2))))
    let tmpAddr := uint32 (uint32 w * 2)
    let sub ← decodeAt tmpAddr
    pure { st with
      synonimFlag := false, synonim := synonim, ret := st.ret ++ sub, alphabet := st.shiftLock }
  else if st.asciiPart > 0 then
    let tmp := st.asciiPart
    if tmp == 1 then
      pure { st with asciiPart := byte (st.asciiPart + 1), asciiFirstPart := uint16 (code <<< 5) }
    else
      pure { st with asciiPart := 0, ret := st.ret ++ [runeOf (st.asciiFirstPart ||| code)] }
  else if code > 5 then do
    let code := code - 6
    let st1 ←
      if st.alphabet == 2 && code == 0 then
        pure { st with asciiPart := 1 }
      else do
        let row ← Alphabets[st.alphabet]?
        let ch ← row[code]?
        pure { st with ret := st.ret ++ [ch] }
    pure { st1 with alphabet := st1.shiftLock }
  else if code == 0 then
    pure { st with ret := st.ret ++ [32] }
  else if code < 4 then
    pure { st with synonimFlag := true, synonim := code }
  else
    pure { st with alphabet := byte (code - 3), shiftLock := 0 }

/-- The outer loop of `DecodeZString`, `for data&0x8000 == 0 { ... }`, from
the value `data` of the last word read. `fuel` bounds the number of words
read along any chain of loop iterations and abbreviation expansions; `none`
is a panic or the exhaustion of `fuel`. -/
def decodeWords (header : ZHeader) :
    Nat → ZMemorySequential → Nat → DecState → Option (DecState × ZMemorySequential)
  | 0, zmem, data, st => if data &&& 0x8000 == 0 then none else some (st, zmem)
  | fuel + 1, zmem, data, st =>
    if data &&& 0x8000 == 0 then do
      let (data, zmem1) ← ReadWord zmem
      let decodeAt := fun addr =>
        (decodeWords header fuel (GetSequential zmem.mem addr) 0 DecState.init).map
          (fun r => r.1.ret)
      let s1 ← decodeCode decodeAt header zmem.mem st ((data >>> 10) &&& 0x1F)
      let s2 ← decodeCode decodeAt header zmem.mem s1 ((data >>> 5) &&& 0x1F)
      let s3 ← decodeCode decodeAt header zmem.mem s2 ((data >>> 0) &&& 0x1F)
      decodeWords header fuel zmem1 data s3
    else some (st, zmem)

/-- Source: `func (zmem *ZMemorySequential) DecodeZString(header *ZHeader) string`:
the decoded text and the cursor afterwards. -/
def DecodeZString (fuel : Nat) (zmem : ZMemorySequential) (header : ZHeader) :
    Option (List Nat × ZMemorySequential) :=
  (decodeWords header fuel zmem 0 DecState.init).map (fun r => (r.1.ret, r.2))

/-- Source: `func (zmem *ZMemory) DecodeZStringAt(addr uint32, header *ZHeader) string` -/
def DecodeZStringAt (fuel : Nat) (zmem : ZMemory) (addr : Nat) (header : ZHeader) :
    Option (List Nat) :=
  (DecodeZString fuel (GetSequential zmem addr) header).map (fun r => r.1)

/-- Go `strings.ToLower` on a string of ASCII bytes (for other strings the
Unicode case mapping is not modelled). -/
def ToLower (what : List Nat) : List Nat :=
  what.map (fun c => if 65 ≤ c ∧ c ≤ 90 then c + 32 else c)

/-- Go `strings.IndexByte(s, c)`: the first index of `c` in `s`, or `-1`. -/
def IndexByte (s : List Nat) (c : Nat) : Int :=
  if c ∈ s then (s.indexOf c : Nat) else -1

/-- The variables captured by the closure `writeChar` of `ZStringEncode`. -/
structure EncState where
  ret : List Nat
  curWordIdx : Nat
  offset : Int
  deriving DecidableEq, Repr

/-- The closure `writeChar` of `ZStringEncode`; indexing `ret` out of range
panics. -/
def writeChar (st : EncState) (ch : Nat) : Option EncState := do
  let w ← st.ret[st.curWordIdx]?
  let ret := st.ret.set st.curWordIdx (w ||| uint16 (uint16 ch <<< byte (st.offset % 256).toNat))
  let offset := st.offset - 5
  if offset < 0 then
    pure { ret := ret, curWordIdx := st.curWordIdx + 1, offset := 10 }
  else
    pure { ret := ret, curWordIdx := st.curWordIdx, offset := offset }

/-- The body of the loop `for c := range what` of `ZStringEncode`, for the
byte `ch = what[c]`. -/
def encodeChar (st : EncState) (ch : Nat) : Option EncState := do
  let i := IndexByte (alphabetRow 0) ch
  let (st1, i1) ←
    if i < 0 then do
      let t ← writeChar st 0x05
      pure (t, IndexByte (alphabetRow 2) ch)
    else pure (st, i)
  let st2 ←
    if i1 < 0 then do
      let t1 ← writeChar st1 0x06
      let t2 ← writeChar t1 (ch >>> 5)
      writeChar t2 (ch &&& 0x1F)
    else pure st1
  writeChar st2 (byte ((i1 + 6) % 256).toNat)

/-- The loop `for c := range what { ... }`, given the bytes `what[c]` that it
reads, in order: all the bytes of an ASCII string, the first byte of every
rune in general (`rangeBytes`). -/
def encodeChars : EncState → List Nat → Option EncState
  | st, [] => some st
  | st, ch :: rest => do
    let st1 ← encodeChar st ch
    encodeChars st1 rest

/-- The loop `for curWordIdx < encodedZstringLen { writeChar(padding) }`;
`fuel` bounds its iterations (six are always enough, see `padLoop_eq`). -/
def padLoop : Nat → EncState → Option EncState
  | 0, st => if st.curWordIdx < encodedZstringLen then none else some st
  | fuel + 1, st =>
    if st.curWordIdx < encodedZstringLen then do
      let st1 ← writeChar st 0x05
      padLoop fuel st1
    else some st

/-- Source: `func ZStringEncode(what string) [encodedZstringLen]uint16`, on a string
of ASCII bytes (`ZStringEncodeUtf8` is the same function on every string). -/
def ZStringEncode (what : List Nat) : Option (List Nat) := do
  let st0 : EncState := { ret := List.replicate encodedZstringLen 0, curWordIdx := 0, offset := 10 }
  let st1 ← encodeChars st0 (ToLower what)
  let st2 ← padLoop 6 st1
  let last ← st2.ret[encodedZstringLen - 1]?
  pure (st2.ret.set (encodedZstringLen - 1) (last ||| uint16 (1 <<< 15)))

/-! ## The code sequence of a string -/

/-- The 5-bit codes that one iteration of the loop of `ZStringEncode` writes
for the (lower-cased) byte `ch`: the row 0 code; else the shift 5 and the row
2 code; else the shift, the escape 6, the high and low bits of `ch`, and the
code `byte(-1 + 6)` of the trailing `writeChar`. -/
def charCodes (ch : Nat) : List Nat :=
  if ch ∈ alphabetRow 0 then [(alphabetRow 0).indexOf ch + 6]
  else if ch ∈ alphabetRow 2 then [0x05, (alphabetRow 2).indexOf ch + 6]
  else [0x05, 0x06, ch >>> 5, ch &&& 0x1F, 0x05]

/-- The code sequence of a string: the codes of its lower-cased bytes. -/
def zcodes (what : List Nat) : List Nat :=
  (ToLower what).flatMap charCodes

/-- A sequence of `writeChar` calls. -/
def writeCodes : EncState → List Nat → Option EncState
  | st, [] => some st
  | st, c :: rest => do
    let st1 ← writeChar st c
    writeCodes st1 rest

/-- The state of the encoder after the codes `cs` (at most six, each below
32) have been written: three codes per word at bit offsets 10, 5, 0. -/
def packState (cs : List Nat) : EncState :=
  { ret := [cs.getD 0 0 * 1024 + cs.getD 1 0 * 32 + cs.getD 2 0,
            cs.getD 3 0 * 1024 + cs.getD 4 0 * 32 + cs.getD 5 0],
    curWordIdx := cs.length / 3,
    offset := 10 - 5 * ((cs.length % 3 : Nat) : Int) }

/-- The codes `cs`, decoded one after the other from the state `st`, lead to
the state `st1`, whatever the abbreviation decoder is. -/
def stepsTo (header : ZHeader) (mem : ZMemory) : DecState → List Nat → DecState → Prop
  | st, [], st1 => st = st1
  | st, c :: rest, st1 =>
    ∃ t, (∀ decodeAt, decodeCode decodeAt header mem st c = some t) ∧
      stepsTo header mem t rest st1

/-- The inner loop `for i := 10; i >= 0; i -= 5` of `DecodeZString` over the
three codes of the word `data`. -/
def decodeWord (decodeAt : Nat → Option (List Nat)) (header : ZHeader) (mem : ZMemory)
    (st : DecState) (data : Nat) : Option DecState := do
  let s1 ← decodeCode decodeAt header mem st ((data >>> 10) &&& 0x1F)
  let s2 ← decodeCode decodeAt header mem s1 ((data >>> 5) &&& 0x1F)
  decodeCode decodeAt header mem s2 ((data >>> 0) &&& 0x1F)

/-! ## zmemory.go: the encoder on arbitrary strings -/

/-- The length that the first byte `b0` of a UTF-8 sequence announces: 2 for
`0xC2..0xDF`, 3 for `0xE0..0xEF`, 4 for `0xF0..0xF4`, and 1 for an ASCII byte
and for every byte that cannot start a sequence. -/
def leadSize (b0 : Nat) : Nat :=
  if 0xC2 ≤ b0 ∧ b0 ≤ 0xDF then 2
  else if 0xE0 ≤ b0 ∧ b0 ≤ 0xEF then 3
  else if 0xF0 ≤ b0 ∧ b0 ≤ 0xF4 then 4
  else 1

/-- The smallest second byte accepted after the first byte `b0` (no overlong
forms). -/
def secondLo (b0 : Nat) : Nat :=
  if b0 = 0xE0 then 0xA0 else if b0 = 0xF0 then 0x90 else 0x80

/-- The largest second byte accepted after the first byte `b0` (no surrogates,
nothing above `U+10FFFF`). -/
def secondHi (b0 : Nat) : Nat :=
  if b0 = 0xED then 0x9F else if b0 = 0xF4 then 0x8F else 0xBF

/-- A UTF-8 continuation byte, `0x80..0xBF`. -/
def isCont (b : Nat) : Bool := decide (0x80 ≤ b ∧ b ≤ 0xBF)

/-- The number of bytes by which `for c := range what` advances at the start
of the non-empty string `s`: the length of a well-formed UTF-8 sequence, and 1
for an ASCII byte and for every ill-formed or truncated sequence (which Go
reads as the one-byte rune `U+FFFD`). -/
def runeWidth (s : List Nat) : Nat :=
  match s with
  | [] => 1
  | b0 :: rest =>
    if leadSize b0 = 1 then 1
    else if rest.length + 1 < leadSize b0 then 1
    else if ¬ (secondLo b0 ≤ rest.getD 0 0 ∧ rest.getD 0 0 ≤ secondHi b0) then 1
    else if leadSize b0 = 2 then 2
    else if isCont (rest.getD 1 0) = false then 1
    else if leadSize b0 = 3 then 3
    else if isCont (rest.getD 2 0) = false then 1
    else 4

/-- The bytes `what[c]` that the loop `for c := range what` of `ZStringEncode`
reads: `c` runs over the byte indices at which a rune starts, so the loop sees
the first byte of every rune; `skip` counts the bytes of the current rune that
are still to be passed over. -/
def rangeBytes : Nat → List Nat → List Nat
  | _, [] => []
  | skip + 1, _ :: rest => rangeBytes skip rest
  | 0, b :: rest => b :: rangeBytes (runeWidth (b :: rest) - 1) rest

/-- Source: `func ZStringEncode(what string) [encodedZstringLen]uint16`, on an
arbitrary Go string, given as the list of its bytes (well-formed UTF-8 or
not). The standard library function `strings.ToLower` is the parameter
`toLower`; the loop body runs on the first byte of every rune of the
lower-cased string. -/
def ZStringEncodeUtf8 (toLower : List Nat → List Nat) (what : List Nat) : Option (List Nat) := do
  let st0 : EncState := { ret := List.replicate encodedZstringLen 0, curWordIdx := 0, offset := 10 }
  let st1 ← encodeChars st0 (rangeBytes 0 (toLower what))
  let st2 ← padLoop 6 st1
  let last ← st2.ret[encodedZstringLen - 1]?
  pure (st2.ret.set (encodedZstringLen - 1) (last ||| uint16 (1 <<< 15)))

/-- The code sequence of an arbitrary string: the codes that the loop of
`ZStringEncode` writes, one group per rune of the lower-cased string. -/
def zcodesUtf8 (toLower : List Nat → List Nat) (what : List Nat) : List Nat :=
  (rangeBytes 0 (toLower what)).flatMap charCodes

/-! ## The abbreviation lookup in the words of the specification -/

/-- The abbreviation step as the specification words it: the index is
`(z-1)*64 + c`, the word is read at `abbrTableBase + index*2`, the string at
twice that word is decoded and appended, the alphabet row is reset. -/
def specAbbrevStep (decodeAt : Nat → Option (List Nat)) (header : ZHeader) (mem : ZMemory)
    (st : DecState) (z c : Nat) : Option DecState := do
  let index := (z - 1) * 64 + c
  let w ← WordAt mem (header.abbrTblPos + index * 2)
  let sub ← decodeAt (2 * w)
  pure { st with synonimFlag := false, ret := st.ret ++ sub, alphabet := st.shiftLock }

/-- The code of letter `i` of a string in the words of the specification:
6 plus the index of the lower-cased letter in alphabet row 0, and the pad
value 5 past the end of the string. -/
def specLetterCode (what : List Nat) (i : Nat) : Nat :=
  match (ToLower what)[i]? with
  | some ch => 6 + (alphabetRow 0).indexOf ch
  | none => 5

/-! ## The branch descriptor in the words of the specification -/

/-- Bit 7 of the descriptor byte: branch on true. -/
def specBranchOnTrue (info : Nat) : Bool := info / 128 % 2 == 1

/-- Number of descriptor bytes: one when bit 6 is set, two when it is clear. -/
def specDescriptorLen (info : Nat) : Nat := if info / 64 % 2 = 1 then 1 else 2

/-- The decoded offset: the unsigned low 6 bits of the descriptor byte when
bit 6 is set; otherwise the two's-complement signed 14-bit value whose high 6
bits are the low 6 bits of the first byte and whose low 8 bits are `low`. -/
def specBranchOffset (info low : Nat) : Int :=
  if info / 64 % 2 = 1 then ((info % 64 : Nat) : Int)
  else if info % 64 * 256 + low < 8192 then ((info % 64 * 256 + low : Nat) : Int)
  else ((info % 64 * 256 + low : Nat) : Int) - 16384

/-- The machine after the descriptor starting at the cursor has been consumed. -/
def afterDescriptor (zm : ZMachine) (info : Nat) : ZMachine :=
  { zm with seq := { zm.seq with pos := zm.seq.pos + specDescriptorLen info } }

/-! ## Concrete inputs -/

/-- The buffer of `zmemory_test.go` (`readTestData`). -/
def readTestData : ZMemory := [42, 73, 96, 7, 28, 1, 2, 3]

/-- A story fragment for the branch and return examples: a branch descriptor
at 0 (`0xC5`: on true, one byte, offset 5), one at 2 (`0xBF 0xFF`: on true,
two bytes, offset -1), one at 8 (`0xC0`: on true, one byte, offset 0), the
store byte `0x10` (global 16) at 4, and the globals table at 6. -/
def exMem : ZMemory := [0xC5, 0x00, 0xBF, 0xFF, 0x10, 0x00, 0x12, 0x34, 0xC0, 0x00]

/-- A machine over `exMem` with a main frame and one called frame that
returns to address 4. -/
def exMachine (pos : Nat) : ZMachine :=
  { header := { pc := 0, globalsPos := 6, abbrTblPos := 0 },
    seq := { mem := exMem, pos := pos },
    stack := [{ addr := 0, retAddr := 0, locals := [7] },
              { addr := 8, retAddr := 4, locals := [1, 2] }],
    quitted := false }

/-- A story fragment for the call examples: the store byte `0x10` (global 16)
at 1, the globals table at 2, and at byte address 4 (packed address 2) a
routine header declaring 2 locals with defaults `0x0011` and `0x0022`. -/
def exCallMem : ZMemory := [0x00, 0x10, 0x00, 0x00, 0x02, 0x00, 0x11, 0x00, 0x22, 0x00]

/-- A machine over `exCallMem`, in its main frame, with the cursor on the
store byte of a call instruction. -/
def exCallMachine : ZMachine :=
  { header := { pc := 0, globalsPos := 2, abbrTblPos := 0 },
    seq := { mem := exCallMem, pos := 1 },
    stack := [{ addr := 0, retAddr := 0, locals := [7] }],
    quitted := false }

/-- The machine `exCallMachine` after `call 2 99`. -/
def exCalledMachine : ZMachine :=
  { header := { pc := 0, globalsPos := 2, abbrTblPos := 0 },
    seq := { mem := exCallMem, pos := 9 },
    stack := [{ addr := 0, retAddr := 0, locals := [7] },
              { addr := 4, retAddr := 1, locals := [99, 0x22] }],
    quitted := false }

/-- A machine whose 4-byte memory starts with the byte 2: at address 0 no
routine header with 2 locals fits. The cursor is on the store byte `0x10`
(global 16), the globals table is at 2. -/
def exShortMachine : ZMachine :=
  { header := { pc := 0, globalsPos := 2, abbrTblPos := 0 },
    seq := { mem := [0x02, 0x10, 0x00, 0x00], pos := 1 },
    stack := [{ addr := 0, retAddr := 0, locals := [7] }],
    quitted := false }

/-- A text at 0 with an abbreviation: the words `0x040D` (codes 1, 0, 13)
and `0xB8A5` (codes 14, 5, 5, terminator); the abbreviation table at 8, whose
entry 0 holds 5, the word address of the text `0x98E5` (codes 6, 7, 5,
terminator) at byte 10. -/
def exTextMem : ZMemory :=
  [0x04, 0x0D, 0xB8, 0xA5, 0x00, 0x00, 0x00, 0x00, 0x00, 0x05, 0x98, 0xE5]

/-- A memory with an abbreviation table at 4: the text `0x8805` (codes 2, 0,
5, terminator) at 0; at `4 + 64` the word 70 and at `4 + 128` the word 71;
at byte 140 the text `a` (`0x98A5`) and at byte 142 the text `b` (`0x9CA5`). -/
def exAbbrMem : ZMemory :=
  [0x88, 0x05, 0x00, 0x00] ++ List.replicate 64 0 ++ [0, 70] ++ List.replicate 62 0 ++
    [0, 71] ++ List.replicate 6 0 ++ [0x98, 0xA5, 0x9C, 0xA5]

/-- The decoder state after the code 2 has announced an abbreviation. -/
def exPending : DecState :=
  { ret := [], alphabet := 0, shiftLock := 0, synonimFlag := true, synonim := 2,
    asciiPart := 0, asciiFirstPart := 0 }

/-- The machine `exCallMachine` after `call 2` without arguments: its top
frame is the frame `NewZRoutine` builds from the header at byte 4, with the
2 declared locals `0x11`, `0x22` and nothing pushed. -/
def exFreshMachine : ZMachine :=
  { header := { pc := 0, globalsPos := 2, abbrTblPos := 0 },
    seq := { mem := exCallMem, pos := 9 },
    stack := [{ addr := 0, retAddr := 0, locals := [7] },
              { addr := 4, retAddr := 1, locals := [0x11, 0x22] }],
    quitted := false }

/-! # Theorems -/

/-! ## Bit-level helper lemmas -/

theorem shl_or_eq (i hi lo : Nat) (h : lo < 2 ^ i) : hi <<< i ||| lo = 2 ^ i * hi + lo := by
  rw [Nat.shiftLeft_eq, Nat.mul_comm hi (2 ^ i), Nat.mul_add_lt_is_or h]

theorem be16_eq (b0 b1 : Nat) (h0 : b0 < 256) (h1 : b1 < 256) :
    uint16 (uint16 b0 <<< 8) ||| uint16 b1 = 256 * b0 + b1 := by
  have e0 : uint16 b0 = b0 := by unfold uint16; omega
  have e1 : uint16 b1 = b1 := by unfold uint16; omega
  have e2 : uint16 (b0 <<< 8) = b0 <<< 8 := by
    unfold uint16; rw [Nat.shiftLeft_eq]; omega
  rw [e0, e1, e2]
  exact shl_or_eq 8 b0 b1 (by norm_num; exact h1)

theorem be32_eq (b0 b1 b2 b3 : Nat) (h0 : b0 < 256) (h1 : b1 < 256) (h2 : b2 < 256)
    (h3 : b3 < 256) :
    uint32 (uint32 b0 <<< 24) ||| uint32 (uint32 b1 <<< 16) ||| uint32 (uint32 b2 <<< 8) |||
      uint32 b3 = 2 ^ 24 * b0 + 2 ^ 16 * b1 + 2 ^ 8 * b2 + b3 := by
  have e0 : uint32 (uint32 b0 <<< 24) = 2 ^ 24 * b0 := by
    unfold uint32; rw [Nat.shiftLeft_eq]; omega
  have e1 : uint32 (uint32 b1 <<< 16) = 2 ^ 16 * b1 := by
    unfold uint32; rw [Nat.shiftLeft_eq]; omega
  have e2 : uint32 (uint32 b2 <<< 8) = 2 ^ 8 * b2 := by
    unfold uint32; rw [Nat.shiftLeft_eq]; omega
  have e3 : uint32 b3 = b3 := by unfold uint32; omega
  rw [e0, e1, e2, e3]
  have s1 : 2 ^ 24 * b0 ||| 2 ^ 16 * b1 = 2 ^ 16 * (2 ^ 8 * b0 + b1) := by
    rw [← Nat.mul_add_lt_is_or (by omega) b0]; omega
  have s2 : 2 ^ 16 * (2 ^ 8 * b0 + b1) ||| 2 ^ 8 * b2 = 2 ^ 8 * (2 ^ 16 * b0 + 2 ^ 8 * b1 + b2) := by
    rw [← Nat.mul_add_lt_is_or (by omega) (2 ^ 8 * b0 + b1)]; omega
  have s3 : 2 ^ 8 * (2 ^ 16 * b0 + 2 ^ 8 * b1 + b2) ||| b3 =
      2 ^ 24 * b0 + 2 ^ 16 * b1 + 2 ^ 8 * b2 + b3 := by
    rw [← Nat.mul_add_lt_is_or (by omega) (2 ^ 16 * b0 + 2 ^ 8 * b1 + b2)]; omega
  rw [s1, s2, s3]

theorem split16_eq (w : Nat) (h : w < 65536) :
    uint16 (uint16 (byte (w >>> 8)) <<< 8) ||| uint16 (byte (w &&& 0x00FF)) = w := by
  have ea : w &&& 0x00FF = w % 256 := Nat.and_pow_two_sub_one_eq_mod w 8
  have eb : w >>> 8 = w / 256 := Nat.shiftRight_eq_div_pow w 8
  rw [ea, eb]
  have h0 : byte (w / 256) < 256 := by unfold byte; omega
  have h1 : byte (w % 256) < 256 := by unfold byte; omega
  rw [be16_eq _ _ h0 h1]
  unfold byte; omega

/-! ## Memory and cursor theorems -/

/-- C2. Big-endian reads: on a well-formed buffer, when the two (resp. four)
bytes starting at `a` are in bounds (and are 32-bit addresses), `WordAt a` is
`256*mem[a] + mem[a+1]` and `UInt32At a` is
`2^24*mem[a] + 2^16*mem[a+1] + 2^8*mem[a+2] + mem[a+3]`. -/
theorem wordAt_uint32At_big_endian (mem : ZMemory) (a : Nat) (hv : ValidMem mem) :
    (∀ (h : a + 1 < mem.length), a + 1 < 2 ^ 32 →
      WordAt mem a = some (256 * mem[a] + mem[a + 1])) ∧
    (∀ (h : a + 3 < mem.length), a + 3 < 2 ^ 32 →
      UInt32At mem a =
        some (2 ^ 24 * mem[a] + 2 ^ 16 * mem[a + 1] + 2 ^ 8 * mem[a + 2] + mem[a + 3])) := by
  refine ⟨fun h h32 => ?_, fun h h32 => ?_⟩
  · have e1 : uint32 (a + 1) = a + 1 := by unfold uint32; omega
    have g0 : mem[a]? = some mem[a] := List.getElem?_eq_getElem (by omega)
    have g1 : mem[a + 1]? = some mem[a + 1] := List.getElem?_eq_getElem h
    simp only [WordAt, e1, g0, g1, Option.bind_eq_bind, Option.some_bind, Option.pure_def]
    rw [be16_eq _ _ (hv _ (List.getElem_mem _)) (hv _ (List.getElem_mem _))]
  · have e1 : uint32 (a + 1) = a + 1 := by unfold uint32; omega
    have e2 : uint32 (a + 2) = a + 2 := by unfold uint32; omega
    have e3 : uint32 (a + 3) = a + 3 := by unfold uint32; omega
    have g0 : mem[a]? = some mem[a] := List.getElem?_eq_getElem (by omega)
    have g1 : mem[a + 1]? = some mem[a + 1] := List.getElem?_eq_getElem (by omega)
    have g2 : mem[a + 2]? = some mem[a + 2] := List.getElem?_eq_getElem (by omega)
    have g3 : mem[a + 3]? = some mem[a + 3] := List.getElem?_eq_getElem h
    simp only [UInt32At, e1, e2, e3, g0, g1, g2, g3, Option.bind_eq_bind, Option.some_bind,
      Option.pure_def]
    rw [be32_eq _ _ _ _ (hv _ (List.getElem_mem _)) (hv _ (List.getElem_mem _))
      (hv _ (List.getElem_mem _)) (hv _ (List.getElem_mem _))]

/-- Witness for C2 on the test buffer of `zmemory_test.go`, at address 2. -/
theorem wordAt_uint32At_big_endian_witness :
    ValidMem readTestData ∧ WordAt readTestData 2 = some 24583 ∧
      UInt32At readTestData 2 = some 1611078657 :=
  ⟨by decide,
   (wordAt_uint32At_big_endian readTestData 2 (by decide)).1 (by decide) (by norm_num),
   (wordAt_uint32At_big_endian readTestData 2 (by decide)).2 (by decide) (by norm_num)⟩

theorem writeByteAt_some (mem : ZMemory) (a b : Nat) (h : a < mem.length) :
    WriteByteAt mem a b = some (mem.set a b) := by
  simp [WriteByteAt, h]

theorem writeWordAt_some (mem : ZMemory) (a w : Nat) (h : a + 1 < mem.length)
    (h32 : a + 1 < 2 ^ 32) :
    WriteWordAt mem a w =
      some ((mem.set a (byte (w >>> 8))).set (a + 1) (byte (w &&& 0x00FF))) := by
  have e1 : uint32 (a + 1) = a + 1 := by unfold uint32; omega
  have h0 : a < mem.length := by omega
  simp [WriteWordAt, WriteByteAt, e1, h0, h]

theorem wordAt_some (mem : ZMemory) (a : Nat) (h : a + 1 < mem.length) (h32 : a + 1 < 2 ^ 32) :
    WordAt mem a = some (uint16 (uint16 mem[a] <<< 8) ||| uint16 mem[a + 1]) := by
  have e1 : uint32 (a + 1) = a + 1 := by unfold uint32; omega
  have g0 : mem[a]? = some mem[a] := List.getElem?_eq_getElem (by omega)
  have g1 : mem[a + 1]? = some mem[a + 1] := List.getElem?_eq_getElem h
  simp only [WordAt, e1, g0, g1, Option.bind_eq_bind, Option.some_bind, Option.pure_def]

theorem uint32At_some (mem : ZMemory) (a : Nat) (h : a + 3 < mem.length)
    (h32 : a + 3 < 2 ^ 32) :
    UInt32At mem a = some (uint32 (uint32 mem[a] <<< 24) ||| uint32 (uint32 mem[a + 1] <<< 16) |||
      uint32 (uint32 mem[a + 2] <<< 8) ||| uint32 mem[a + 3]) := by
  have e1 : uint32 (a + 1) = a + 1 := by unfold uint32; omega
  have e2 : uint32 (a + 2) = a + 2 := by unfold uint32; omega
  have e3 : uint32 (a + 3) = a + 3 := by unfold uint32; omega
  have g0 : mem[a]? = some mem[a] := List.getElem?_eq_getElem (by omega)
  have g1 : mem[a + 1]? = some mem[a + 1] := List.getElem?_eq_getElem (by omega)
  have g2 : mem[a + 2]? = some mem[a + 2] := List.getElem?_eq_getElem (by omega)
  have g3 : mem[a + 3]? = some mem[a + 3] := List.getElem?_eq_getElem h
  simp only [UInt32At, e1, e2, e3, g0, g1, g2, g3, Option.bind_eq_bind, Option.some_bind,
    Option.pure_def]

theorem wordAt_writeWordAt (mem : ZMemory) (a w : Nat) (h : a + 1 < mem.length)
    (h32 : a + 1 < 2 ^ 32) (hw : w < 65536) :
    WordAt ((mem.set a (byte (w >>> 8))).set (a + 1) (byte (w &&& 0x00FF))) a = some w := by
  rw [wordAt_some _ a (by simpa using h) h32]
  simp only [List.getElem_set_self, List.getElem_set_ne (Nat.succ_ne_self a)]
  rw [split16_eq w hw]

/-- C3. Write-then-read round trip: at an in-bounds address, `ByteAt` after
`WriteByteAt a b` returns `b`, and (the two bytes being in bounds and 32-bit
addresses) `WordAt` after `WriteWordAt a w` returns the 16-bit word `w`. -/
theorem write_then_read (mem : ZMemory) (a b w : Nat) :
    (a < mem.length →
      ∃ mem1, WriteByteAt mem a b = some mem1 ∧ ByteAt mem1 a = some b) ∧
    (a + 1 < mem.length → a + 1 < 2 ^ 32 → w < 65536 →
      ∃ mem2, WriteWordAt mem a w = some mem2 ∧ WordAt mem2 a = some w) := by
  refine ⟨fun h => ⟨_, writeByteAt_some mem a b h, ?_⟩, fun h h32 hw =>
    ⟨_, writeWordAt_some mem a w h h32, wordAt_writeWordAt mem a w h h32 hw⟩⟩
  simp [ByteAt, h]

/-- Witness for C3 on the test buffer: a byte written at 7, a word at 6. -/
theorem write_then_read_witness :
    (∃ mem1, WriteByteAt readTestData 7 200 = some mem1 ∧ ByteAt mem1 7 = some 200) ∧
    (∃ mem2, WriteWordAt readTestData 6 65535 = some mem2 ∧ WordAt mem2 6 = some 65535) :=
  ⟨(write_then_read readTestData 7 200 0).1 (by decide),
   (write_then_read readTestData 6 0 65535).2 (by decide) (by norm_num) (by norm_num)⟩

/-- C4. Cursor movement. The peeks return the value at the position and the
cursor itself; the reads return the same value and move the position by
exactly 1, 2, 4; the writes store at the position and move it by exactly 1, 2.
Each access is assumed in bounds, with its end position a 32-bit offset. -/
theorem cursor_movement (s : ZMemorySequential) (b w : Nat) :
    (s.pos + 1 ≤ s.mem.length → s.pos + 1 < 2 ^ 32 →
      ∃ v, ByteAt s.mem s.pos = some v ∧ PeekByte s = some (v, s) ∧
        ReadByte s = some (v, { mem := s.mem, pos := s.pos + 1 })) ∧
    (s.pos + 2 ≤ s.mem.length → s.pos + 2 < 2 ^ 32 →
      ∃ v, WordAt s.mem s.pos = some v ∧ PeekWord s = some (v, s) ∧
        ReadWord s = some (v, { mem := s.mem, pos := s.pos + 2 })) ∧
    (s.pos + 4 ≤ s.mem.length → s.pos + 4 < 2 ^ 32 →
      ∃ v, UInt32At s.mem s.pos = some v ∧ PeekUInt32 s = some (v, s) ∧
        ReadUint32 s = some (v, { mem := s.mem, pos := s.pos + 4 })) ∧
    (s.pos + 1 ≤ s.mem.length → s.pos + 1 < 2 ^ 32 →
      ∃ m, WriteByteAt s.mem s.pos b = some m ∧
        WriteByte s b = some { mem := m, pos := s.pos + 1 }) ∧
    (s.pos + 2 ≤ s.mem.length → s.pos + 2 < 2 ^ 32 →
      ∃ m, WriteWordAt s.mem s.pos w = some m ∧
        WriteWord s w = some { mem := m, pos := s.pos + 2 }) := by
  refine ⟨fun h h32 => ?_, fun h h32 => ?_, fun h h32 => ?_, fun h h32 => ?_, fun h h32 => ?_⟩
  · have e : uint32 (s.pos + 1) = s.pos + 1 := by unfold uint32; omega
    have g : s.mem[s.pos]? = some s.mem[s.pos] := List.getElem?_eq_getElem (by omega)
    exact ⟨s.mem[s.pos], by simp [ByteAt, g], by simp [PeekByte, ByteAt, g],
      by simp [ReadByte, ByteAt, g, e]⟩
  · have e : uint32 (s.pos + 2) = s.pos + 2 := by unfold uint32; omega
    have g := wordAt_some s.mem s.pos (by omega) (by omega)
    exact ⟨_, g, by simp [PeekWord, g], by simp [ReadWord, g, e]⟩
  · have e : uint32 (s.pos + 4) = s.pos + 4 := by unfold uint32; omega
    have g := (uint32At_some s.mem s.pos (by omega) (by omega))
    exact ⟨_, g, by simp [PeekUInt32, g], by simp [ReadUint32, g, e]⟩
  · have e : uint32 (s.pos + 1) = s.pos + 1 := by unfold uint32; omega
    have g := writeByteAt_some s.mem s.pos b (by omega)
    exact ⟨_, g, by simp [WriteByte, g, e]⟩
  · have e : uint32 (s.pos + 2) = s.pos + 2 := by unfold uint32; omega
    have g := writeWordAt_some s.mem s.pos w (by omega) (by omega)
    exact ⟨_, g, by simp [WriteWord, g, e]⟩

/-- Witness for C4: a cursor at position 2 of the test buffer. -/
theorem cursor_movement_witness :
    ∃ v, UInt32At readTestData 2 = some v ∧
      PeekUInt32 { mem := readTestData, pos := 2 } = some (v, { mem := readTestData, pos := 2 }) ∧
      ReadUint32 { mem := readTestData, pos := 2 } =
        some (v, { mem := readTestData, pos := 2 + 4 }) :=
  (cursor_movement { mem := readTestData, pos := 2 } 0 0).2.2.1 (by decide) (by norm_num)

/-! ## Branch -/

theorem readByte_some (s : ZMemorySequential) (v : Nat) (h : s.mem[s.pos]? = some v) :
    ReadByte s = some (v, { s with pos := uint32 (s.pos + 1) }) := by
  simp [ReadByte, ByteAt, h]

set_option maxRecDepth 100000 in
theorem info_bits : ∀ info, info < 256 →
    ((info &&& 0x40 != 0x00) = decide (info / 64 % 2 = 1)) ∧ info &&& 0x3F = info % 64 ∧
    (((info >>> 7) != 0x00) = specBranchOnTrue info) ∧
    (if uint16 (info &&& 0x3F) &&& 0x20 != 0x00 then uint16 (info &&& 0x3F) ||| (0x3 <<< 6)
      else uint16 (info &&& 0x3F)) = (if info % 64 < 32 then info % 64 else info % 64 + 192) := by
  decide

theorem int16_first_low (info low : Nat) (hlow : low < 256) :
    int16 (uint16 ((if info % 64 < 32 then info % 64 else info % 64 + 192) <<< 8) ||| low) =
      (if info % 64 * 256 + low < 8192 then ((info % 64 * 256 + low : Nat) : Int)
        else ((info % 64 * 256 + low : Nat) : Int) - 16384) := by
  have hm : info % 64 < 64 := Nat.mod_lt _ (by norm_num)
  have e : ∀ fp, fp < 256 → uint16 (fp <<< 8) ||| low = 256 * fp + low := by
    intro fp hfp
    have : uint16 (fp <<< 8) = fp <<< 8 := by unfold uint16; rw [Nat.shiftLeft_eq]; omega
    rw [this]; exact shl_or_eq 8 fp low (by norm_num; exact hlow)
  by_cases h : info % 64 < 32
  · rw [if_pos h, e _ (by omega)]; unfold int16
    split_ifs <;> omega
  · rw [if_neg h, e _ (by omega)]; unfold int16
    split_ifs <;> omega

theorem branchOffset_eq (zm : ZMachine) (info low : Nat) (hi : info < 256) (hl : low < 256)
    (hlow : info / 64 % 2 = 0 → zm.seq.mem[zm.seq.pos]? = some low) :
    branchOffset zm info = some (specBranchOffset info low,
      { zm with seq := { zm.seq with
          pos := if info / 64 % 2 = 1 then zm.seq.pos else uint32 (zm.seq.pos + 1) } }) := by
  obtain ⟨b6, b05, _, bfp⟩ := info_bits info hi
  unfold branchOffset
  simp only [b6, bfp]
  by_cases h : info / 64 % 2 = 1
  · simp [h, b05, specBranchOffset]
  · have h0 : info / 64 % 2 = 0 := by omega
    simp only [h, decide_False, Bool.false_eq_true, if_false]
    rw [readByte_some zm.seq low (hlow h0)]
    simp [specBranchOffset, h, int16_first_low info low hl]

theorem branch_unfold (zm : ZMachine) (c : Bool) (info low : Nat) (hi : info < 256)
    (hl : low < 256) (hinfo : zm.seq.mem[zm.seq.pos]? = some info)
    (hlow : info / 64 % 2 = 0 → zm.seq.mem[zm.seq.pos + 1]? = some low)
    (h32 : zm.seq.pos + specDescriptorLen info < 2 ^ 32) :
    Branch zm c =
      if c == specBranchOnTrue info then
        if specBranchOffset info low == 0 then ZReturnFalse (afterDescriptor zm info)
        else if specBranchOffset info low == 1 then ZReturnTrue (afterDescriptor zm info)
        else some { afterDescriptor zm info with
          seq := { (afterDescriptor zm info).seq with
            pos := CalcJumpAddress (afterDescriptor zm info) (specBranchOffset info low) } }
      else some (afterDescriptor zm info) := by
  obtain ⟨_, _, b7, _⟩ := info_bits info hi
  have hlen : 1 ≤ specDescriptorLen info := by unfold specDescriptorLen; split_ifs <;> omega
  have e1 : uint32 (zm.seq.pos + 1) = zm.seq.pos + 1 := by unfold uint32; omega
  have hb := branchOffset_eq { zm with seq := { zm.seq with pos := zm.seq.pos + 1 } } info low
    hi hl hlow
  have hz : ({ zm with seq := { zm.seq with pos :=
      if info / 64 % 2 = 1 then zm.seq.pos + 1 else uint32 (zm.seq.pos + 1 + 1) } } : ZMachine) =
      afterDescriptor zm info := by
    unfold afterDescriptor specDescriptorLen
    by_cases h : info / 64 % 2 = 1
    · simp [h]
    · have e2 : uint32 (zm.seq.pos + 1 + 1) = zm.seq.pos + 2 := by
        unfold specDescriptorLen at h32; rw [if_neg h] at h32; unfold uint32; omega
      simp [h, e2]
  unfold Branch
  rw [readByte_some zm.seq info hinfo]
  simp only [e1, Option.bind_eq_bind, Option.some_bind, b7]
  simp only [] at hb
  rw [hb]
  simp only [Option.some_bind, hz]
  rfl

theorem specBranchOffset_bit6 (info low low1 : Nat) (h : info / 64 % 2 = 1) :
    specBranchOffset info low = specBranchOffset info low1 := by
  simp [specBranchOffset, h]

/-- The shape of `Branch` once the descriptor bytes are known, for a
well-formed buffer; `low` only matters for a two-byte descriptor. -/
theorem branch_cases (zm : ZMachine) (c : Bool) (info low : Nat) (hv : ValidMem zm.seq.mem)
    (hinfo : zm.seq.mem[zm.seq.pos]? = some info)
    (hlow : info / 64 % 2 = 0 → zm.seq.mem[zm.seq.pos + 1]? = some low)
    (h32 : zm.seq.pos + specDescriptorLen info < 2 ^ 32) :
    Branch zm c =
      if c == specBranchOnTrue info then
        if specBranchOffset info low == 0 then ZReturnFalse (afterDescriptor zm info)
        else if specBranchOffset info low == 1 then ZReturnTrue (afterDescriptor zm info)
        else some { afterDescriptor zm info with
          seq := { (afterDescriptor zm info).seq with
            pos := CalcJumpAddress (afterDescriptor zm info) (specBranchOffset info low) } }
      else some (afterDescriptor zm info) := by
  have hi : info < 256 := hv info (List.getElem?_mem hinfo)
  by_cases h : info / 64 % 2 = 1
  · rw [specBranchOffset_bit6 info low 0 h]
    exact branch_unfold zm c info 0 hi (by norm_num) hinfo (fun h0 => by omega) h32
  · have hl : low < 256 := hv low (List.getElem?_mem (hlow (by omega)))
    exact branch_unfold zm c info low hi hl hinfo hlow h32

/-- C5. Taken branch, offset `o` other than 0 and 1: the cursor afterwards is
(position just after the descriptor bytes) `+ o - 2`, computed in the 32-bit
cursor (so modulo `2^32`, and exactly that value whenever it is a 32-bit
position); memory and call stack are untouched. `o` is `specBranchOffset`. -/
theorem branch_taken_target (zm : ZMachine) (c : Bool) (info low : Nat)
    (hv : ValidMem zm.seq.mem)
    (hinfo : zm.seq.mem[zm.seq.pos]? = some info)
    (hlow : info / 64 % 2 = 0 → zm.seq.mem[zm.seq.pos + 1]? = some low)
    (h32 : zm.seq.pos + specDescriptorLen info < 2 ^ 32)
    (hc : specBranchOnTrue info = c)
    (h0 : specBranchOffset info low ≠ 0) (h1 : specBranchOffset info low ≠ 1) :
    ∃ zm1, Branch zm c = some zm1 ∧
      (zm1.seq.pos : Int) =
        (((zm.seq.pos + specDescriptorLen info : Nat) : Int) + specBranchOffset info low - 2)
          % 2 ^ 32 ∧
      (0 ≤ ((zm.seq.pos + specDescriptorLen info : Nat) : Int) + specBranchOffset info low - 2 →
        ((zm.seq.pos + specDescriptorLen info : Nat) : Int) + specBranchOffset info low - 2
          < 2 ^ 32 →
        (zm1.seq.pos : Int) =
          ((zm.seq.pos + specDescriptorLen info : Nat) : Int) + specBranchOffset info low - 2) ∧
      zm1.seq.mem = zm.seq.mem ∧ zm1.stack = zm.stack ∧ zm1.header = zm.header := by
  have hb := branch_cases zm c info low hv hinfo hlow h32
  simp only [hc, beq_self_eq_true, if_true, beq_iff_eq, h0, h1, if_false] at hb
  refine ⟨_, hb, ?_, ?_, rfl, rfl, rfl⟩
  · simp only [CalcJumpAddress, afterDescriptor]
    rw [Int.toNat_of_nonneg (Int.emod_nonneg _ (by norm_num))]
    norm_num
  · intro hge hlt
    simp only [CalcJumpAddress, afterDescriptor]
    rw [Int.toNat_of_nonneg (Int.emod_nonneg _ (by norm_num))]
    have := Int.emod_eq_of_lt hge hlt
    norm_num at this ⊢
    exact this

/-- Witness for C5: the two-byte descriptor `0xBF 0xFF` (offset -1) at
position 2 of `exMem`, taken: the cursor ends at `4 + (-1) - 2 = 1`. -/
theorem branch_taken_target_witness :
    specBranchOffset 0xBF 0xFF = -1 ∧
    ∃ zm1, Branch (exMachine 2) true = some zm1 ∧
      (zm1.seq.pos : Int) = (((2 + 2 : Nat) : Int) + (-1) - 2) % 2 ^ 32 ∧
      (0 ≤ ((2 + 2 : Nat) : Int) + (-1) - 2 → ((2 + 2 : Nat) : Int) + (-1) - 2 < 2 ^ 32 →
        (zm1.seq.pos : Int) = ((2 + 2 : Nat) : Int) + (-1) - 2) ∧
      zm1.seq.mem = exMem ∧ zm1.stack = (exMachine 2).stack ∧
      zm1.header = (exMachine 2).header :=
  ⟨by decide, branch_taken_target (exMachine 2) true 0xBF 0xFF (by decide) (by decide)
    (by decide) (by decide) (by decide) (by decide) (by decide)⟩

theorem zreturn_eq (zm : ZMachine) (v var : Nat) (frame : ZRoutine) (rest : ZStack)
    (hpop : ZStack.Pop zm.stack = some (frame, rest))
    (hvar : zm.seq.mem[frame.retAddr]? = some var) (h32 : frame.retAddr + 1 < 2 ^ 32) :
    ZReturn zm v =
      StoreVarAt { zm with stack := rest,
                           seq := { zm.seq with pos := frame.retAddr + 1 } } var v := by
  have e1 : uint32 (frame.retAddr + 1) = frame.retAddr + 1 := by unfold uint32; omega
  unfold ZReturn StoreReturn
  rw [hpop]
  simp only [Option.bind_eq_bind, Option.some_bind]
  rw [readByte_some _ var (by simpa using hvar)]
  simp [e1]

/-- C6. Taken branch with offset 0 (resp. 1): `Branch` is the consumption of
the descriptor bytes followed by `rfalse` (resp. `rtrue`); that return pops
the top frame, sets the cursor to its return address, reads the store byte
there (the cursor ends one past it) and stores 0 (resp. 1) into the variable
it names. -/
theorem branch_taken_returns (zm : ZMachine) (c : Bool) (info low : Nat)
    (hv : ValidMem zm.seq.mem)
    (hinfo : zm.seq.mem[zm.seq.pos]? = some info)
    (hlow : info / 64 % 2 = 0 → zm.seq.mem[zm.seq.pos + 1]? = some low)
    (h32 : zm.seq.pos + specDescriptorLen info < 2 ^ 32)
    (hc : specBranchOnTrue info = c) :
    (specBranchOffset info low = 0 → Branch zm c = ZReturnFalse (afterDescriptor zm info)) ∧
    (specBranchOffset info low = 1 → Branch zm c = ZReturnTrue (afterDescriptor zm info)) ∧
    (∀ frame rest var, ZStack.Pop zm.stack = some (frame, rest) →
      zm.seq.mem[frame.retAddr]? = some var → frame.retAddr + 1 < 2 ^ 32 →
      (ZReturnFalse (afterDescriptor zm info) =
        StoreVarAt { zm with stack := rest,
                             seq := { zm.seq with pos := frame.retAddr + 1 } } var 0) ∧
      (ZReturnTrue (afterDescriptor zm info) =
        StoreVarAt { zm with stack := rest,
                             seq := { zm.seq with pos := frame.retAddr + 1 } } var 1)) := by
  have hb := branch_cases zm c info low hv hinfo hlow h32
  simp only [hc, beq_self_eq_true, if_true, beq_iff_eq] at hb
  refine ⟨fun ho => ?_, fun ho => ?_, fun frame rest var hpop hvar hr => ⟨?_, ?_⟩⟩
  · rw [hb, if_pos ho]
  · rw [hb, if_neg (by rw [ho]; decide), if_pos ho]
  · exact zreturn_eq (afterDescriptor zm info) (uint16 0) var frame rest hpop hvar hr
  · exact zreturn_eq (afterDescriptor zm info) (uint16 1) var frame rest hpop hvar hr

/-- Witness for C6: the descriptor `0xC0` (offset 0) at position 8 of
`exMem`, taken: the called frame is popped, the store byte at its return
address 4 names global 16, whose word (at 6) becomes 0; the cursor ends at 5. -/
theorem branch_taken_returns_witness :
    specBranchOffset 0xC0 0 = 0 ∧
    Branch (exMachine 8) true = ZReturnFalse (afterDescriptor (exMachine 8) 0xC0) ∧
    Branch (exMachine 8) true = some
      { header := { pc := 0, globalsPos := 6, abbrTblPos := 0 },
        seq := { mem := [0xC5, 0x00, 0xBF, 0xFF, 0x10, 0x00, 0x00, 0x00, 0xC0, 0x00], pos := 5 },
        stack := [{ addr := 0, retAddr := 0, locals := [7] }],
        quitted := false } :=
  ⟨by decide,
   (branch_taken_returns (exMachine 8) true 0xC0 0 (by decide) (by decide) (by decide)
      (by decide) (by decide)).1 (by decide),
   by decide⟩

/-- C7. Branch not taken: the cursor advances by exactly 1 when bit 6 of the
descriptor is set and by exactly 2 when it is clear; nothing else in the
machine (memory, call stack, header) changes. -/
theorem branch_not_taken (zm : ZMachine) (c : Bool) (info low : Nat)
    (hv : ValidMem zm.seq.mem)
    (hinfo : zm.seq.mem[zm.seq.pos]? = some info)
    (hlow : info / 64 % 2 = 0 → zm.seq.mem[zm.seq.pos + 1]? = some low)
    (h32 : zm.seq.pos + specDescriptorLen info < 2 ^ 32)
    (hc : specBranchOnTrue info ≠ c) :
    Branch zm c = some { zm with
      seq := { mem := zm.seq.mem, pos := zm.seq.pos + (if info / 64 % 2 = 1 then 1 else 2) } } := by
  have hb := branch_cases zm c info low hv hinfo hlow h32
  have hne : (c == specBranchOnTrue info) = false := by
    cases c <;> cases h : specBranchOnTrue info <;> simp_all
  rw [hb, hne]
  rfl

/-- Witness for C7: the one-byte descriptor `0xC5` (branch on true) at
position 0 of `exMem` with a false condition: the cursor moves to 1. -/
theorem branch_not_taken_witness :
    Branch (exMachine 0) false = some { exMachine 0 with seq := { mem := exMem, pos := 0 + 1 } } :=
  branch_not_taken (exMachine 0) false 0xC5 0 (by decide) (by decide) (by decide) (by decide)
    (by decide)

/-! ## Variables -/

theorem top_concat (st : ZStack) (r : ZRoutine) : ZStack.Top (st ++ [r]) = some r := by
  simp [ZStack.Top]

theorem pop_concat (st : ZStack) (r : ZRoutine) : ZStack.Pop (st ++ [r]) = some (r, st) := by
  simp [ZStack.Pop]

theorem setTop_concat (st : ZStack) (r r1 : ZRoutine) :
    ZStack.setTop (st ++ [r]) r1 = st ++ [r1] := by
  simp [ZStack.setTop]

theorem top_eq_some (st : ZStack) (top : ZRoutine) (h : ZStack.Top st = some top) :
    st = st.take (st.length - 1) ++ [top] := by
  unfold ZStack.Top at h
  have hlen : st.length - 1 < st.length := by
    by_contra hc
    rw [List.getElem?_eq_none (by omega)] at h
    exact absurd h (by simp)
  have h1 : st.take (st.length - 1 + 1) = st := by
    rw [show st.length - 1 + 1 = st.length by omega]; exact List.take_length st
  rw [List.take_add_one, h] at h1
  simpa using h1.symm

theorem globalAddr_eq (zm : ZMachine) (n : Nat) (h16 : 16 ≤ n) (h8 : n < 256)
    (h32 : zm.header.globalsPos + (n - 16) * 2 < 2 ^ 32) :
    globalAddr zm n = zm.header.globalsPos + (n - 16) * 2 := by
  unfold globalAddr uint32 byte; omega

/-- C8. Variable write-then-read: with a non-empty call stack (top frame
`top`) and a 16-bit value `v`, `GetVarAt n` after a successful
`StoreVarAt n v` returns `v` and changes nothing; the write succeeds for
`n = 0`, for a local `1 ≤ n ≤ 15` the top frame has a slot for, and for a
global `n ≥ 16` whose word is in bounds. For `n = 0` the write appends `v` to
the top frame's local-value sequence. -/
theorem var_write_then_read (zm : ZMachine) (top : ZRoutine) (n v : Nat)
    (htop : ZStack.Top zm.stack = some top) (hv : v < 65536) :
    (n = 0 → ∃ zm1, StoreVarAt zm n v = some zm1 ∧ GetVarAt zm1 n = some (v, zm1) ∧
      ZStack.Top zm1.stack = some { top with locals := top.locals ++ [v] } ∧
      zm1.stack.length = zm.stack.length) ∧
    (1 ≤ n → n ≤ 15 → n ≤ top.locals.length →
      ∃ zm1, StoreVarAt zm n v = some zm1 ∧ GetVarAt zm1 n = some (v, zm1)) ∧
    (16 ≤ n → n < 256 →
      zm.header.globalsPos + (n - 16) * 2 + 1 < zm.seq.mem.length →
      zm.header.globalsPos + (n - 16) * 2 + 1 < 2 ^ 32 →
      ∃ zm1, StoreVarAt zm n v = some zm1 ∧ GetVarAt zm1 n = some (v, zm1)) := by
  obtain ⟨hdr, seq, stack, q⟩ := zm
  have hst := top_eq_some stack top htop
  generalize List.take (stack.length - 1) stack = st at hst
  subst hst
  refine ⟨fun h0 => ?_, fun h1 h15 hl => ?_, fun h16 h8 hb h32 => ?_⟩
  · subst h0
    refine ⟨{ header := hdr, seq := seq, quitted := q,
              stack := st ++ [{ top with locals := top.locals ++ [v] }] }, ?_, ?_, ?_, ?_⟩
    · simp [StoreVarAt, top_concat, setTop_concat]
    · simp [GetVarAt, top_concat]
    · simp [top_concat]
    · simp
  · have hn0 : (n == 0) = false := by simp; omega
    have hn16 : n < 16 := by omega
    have hl1 : n - 1 < top.locals.length := by omega
    refine ⟨{ header := hdr, seq := seq, quitted := q,
              stack := st ++ [{ top with locals := top.locals.set (n - 1) v }] }, ?_, ?_⟩
    · simp [StoreVarAt, top_concat, setTop_concat, hn0, hn16, hl1]
    · simp [GetVarAt, top_concat, hn0, hn16, hl1]
  · have hn0 : (n == 0) = false := by simp; omega
    have hn16 : ¬ n < 16 := by omega
    dsimp only at hb h32
    have hg : ∀ m, globalAddr { header := hdr, seq := m, stack := st ++ [top], quitted := q } n =
        hdr.globalsPos + (n - 16) * 2 :=
      fun m => globalAddr_eq _ n h16 h8 (by dsimp only; omega)
    have hw := writeWordAt_some seq.mem (hdr.globalsPos + (n - 16) * 2) v hb h32
    have hr := wordAt_writeWordAt seq.mem (hdr.globalsPos + (n - 16) * 2) v hb h32 hv
    refine ⟨⟨hdr,
      ⟨(seq.mem.set (hdr.globalsPos + (n - 16) * 2) (byte (v >>> 8))).set
        (hdr.globalsPos + (n - 16) * 2 + 1) (byte (v &&& 0x00FF)), seq.pos⟩,
      st ++ [top], q⟩, ?_, ?_⟩
    · simp only [StoreVarAt, hn0, hn16, Bool.false_eq_true, if_false, hg, hw,
        Option.bind_eq_bind, Option.some_bind, Option.pure_def]
    · simp only [GetVarAt, hn0, hn16, Bool.false_eq_true, if_false, hg, hr,
        Option.bind_eq_bind, Option.some_bind, Option.pure_def]

/-- Witness for C8: variable 0 of `exMachine 0`, whose top frame holds
`[1, 2]`; after the write of 9 it holds `[1, 2, 9]`. -/
theorem var_write_then_read_witness :
    ∃ zm1, StoreVarAt (exMachine 0) 0 9 = some zm1 ∧ GetVarAt zm1 0 = some (9, zm1) ∧
      ZStack.Top zm1.stack = some { addr := 8, retAddr := 4, locals := [1, 2] ++ [9] } ∧
      zm1.stack.length = (exMachine 0).stack.length :=
  (var_write_then_read (exMachine 0) { addr := 8, retAddr := 4, locals := [1, 2] } 0 9
    (by decide) (by decide)).1 rfl

/-! ## Call and return -/

theorem fill_step (l : List Nat) (i d : Nat) (ds : List Nat)
    (h : i + (ds.length + 1) ≤ l.length) :
    List.take (i + 1) (l.set i d) ++ ds ++ List.drop (i + 1 + ds.length) (l.set i d) =
      List.take i l ++ d :: ds ++ List.drop (i + (ds.length + 1)) l := by
  have hi : i < l.length := by omega
  rw [List.set_eq_take_cons_drop d hi]
  have hl : (List.take i l).length = i := by simp; omega
  have e1 : List.take (i + 1) (List.take i l ++ d :: List.drop (i + 1) l) =
      List.take i l ++ [d] := by
    rw [List.take_append_eq_append_take, hl]
    simp
  have e2 : List.drop (i + 1 + ds.length) (List.take i l ++ d :: List.drop (i + 1) l) =
      List.drop (i + (ds.length + 1)) l := by
    have := @List.drop_append _ (List.take i l) (d :: List.drop (i + 1) l) (ds.length + 1)
    rw [hl] at this
    rw [show i + 1 + ds.length = i + (ds.length + 1) by omega, this]
    simp only [List.drop_succ_cons, List.drop_drop]
    congr 1; omega
  rw [e1, e2]; simp

/-- The header loop of `NewZRoutine` writes the words it reads into
consecutive slots. -/
theorem readLocals_eq (mem : ZMemory) : ∀ (ds : List Nat) (i pos : Nat) (locals : List Nat),
    i + ds.length ≤ locals.length → pos + 2 * ds.length < 2 ^ 32 →
    (∀ j, j < ds.length → WordAt mem (pos + 2 * j) = ds[j]?) →
    readLocals ds.length i locals { mem := mem, pos := pos } =
      some (locals.take i ++ ds ++ locals.drop (i + ds.length),
        { mem := mem, pos := pos + 2 * ds.length }) := by
  intro ds
  induction ds with
  | nil => intro i pos locals _ _ _; simp [readLocals]
  | cons d ds ih =>
    intro i pos locals hlen h32 hw
    have h0 : WordAt mem pos = some d := by simpa using hw 0 (by simp)
    have e2 : uint32 (pos + 2) = pos + 2 := by
      simp only [List.length_cons] at h32; unfold uint32; omega
    have hi : i < locals.length := by simp only [List.length_cons] at hlen; omega
    have hrec := ih (i + 1) (pos + 2) (locals.set i d)
      (by simp only [List.length_cons] at hlen; simp; omega)
      (by simp only [List.length_cons] at h32; omega)
      (fun j hj => by
        have := hw (j + 1) (by simp; omega)
        rw [show pos + 2 * (j + 1) = pos + 2 + 2 * j by ring] at this
        simpa using this)
    simp only [List.length_cons, readLocals, ReadWord, h0, e2, hi, if_true,
      Option.bind_eq_bind, Option.some_bind, Option.pure_def, hrec]
    rw [fill_step locals i d ds (by simpa using hlen)]
    congr 3
    ring

/-- The argument loop of `ZCall` overwrites the first slots positionally. -/
theorem copyOperands_eq : ∀ (xs : List Nat) (i : Nat) (locals : List Nat),
    i + xs.length ≤ locals.length →
    copyOperands xs i locals =
      some (locals.take i ++ xs ++ locals.drop (i + xs.length)) := by
  intro xs
  induction xs with
  | nil => intro i locals _; simp [copyOperands]
  | cons x xs ih =>
    intro i locals hlen
    have hi : i < locals.length := by simp only [List.length_cons] at hlen; omega
    have hrec := ih (i + 1) (locals.set i x)
      (by simp only [List.length_cons] at hlen; simp; omega)
    simp only [copyOperands, hi, if_true, hrec, List.length_cons]
    rw [fill_step locals i x xs (by simpa using hlen)]

/-- C9. `ZCall` with operand 0 a non-zero packed address `a` and further
operands `xs` (`k` of them), when the byte at `2a` is the locals count `n ≥ k`
followed by the `n` big-endian words `ds`: exactly one frame is pushed, with
address `2a`, return address the cursor position at the call, and locals
`xs` in slots `1..k` followed by `ds` from slot `k+1` on; the cursor ends at
`2a + 1 + 2n` and memory is unchanged. -/
theorem call_builds_frame (zm : ZMachine) (a : Nat) (xs ds : List Nat)
    (ha0 : a ≠ 0) (ha : a < 65536)
    (hn : zm.seq.mem[2 * a]? = some ds.length) (hn8 : ds.length < 256)
    (hk : xs.length ≤ ds.length)
    (hd : ∀ j, j < ds.length → WordAt zm.seq.mem (2 * a + 1 + 2 * j) = ds[j]?) :
    ZCall zm (a :: xs) = some { zm with
      seq := { mem := zm.seq.mem, pos := 2 * a + 1 + 2 * ds.length },
      stack := zm.stack ++
        [{ addr := 2 * a, retAddr := zm.seq.pos, locals := xs ++ ds.drop xs.length }] } := by
  have hp : PackedAddress a = 2 * a := by unfold PackedAddress uint32; omega
  have hpk : IsPackedAddress (2 * a) = true := by simp [IsPackedAddress]
  have e1 : uint32 (2 * a + 1) = 2 * a + 1 := by unfold uint32; omega
  have hrl := readLocals_eq zm.seq.mem ds 0 (2 * a + 1) (List.replicate ds.length 0)
    (by simp) (by omega) hd
  have hne : (2 * a == 0) = false := by simp; omega
  have hnew : NewZRoutine { mem := zm.seq.mem, pos := 2 * a } zm.seq.pos =
      some ({ addr := 2 * a, retAddr := zm.seq.pos, locals := ds },
        { mem := zm.seq.mem, pos := 2 * a + 1 + 2 * ds.length }) := by
    unfold NewZRoutine
    simp only [hpk, Bool.not_true, Bool.false_eq_true, if_false]
    rw [readByte_some _ ds.length (by simpa using hn)]
    simp only [Option.bind_eq_bind, Option.some_bind, e1, hrl]
    simp
  unfold ZCall
  simp only [List.getElem?_cons_zero, Option.bind_eq_bind, Option.some_bind, hp, hnew, hne,
    Bool.false_eq_true, if_false, ZStack.Push, setTop_concat, List.length_cons, List.drop_succ_cons,
    List.drop_zero]
  by_cases hx : xs = []
  · subst hx; simp
  · have hpos : xs.length + 1 > 1 := by
      have := List.length_pos.mpr hx; omega
    rw [if_pos hpos, copyOperands_eq xs 0 ds (by omega)]
    simp

/-- Witness for C9: `call 2 99` in `exCallMachine`: the header at byte 4
declares 2 locals with defaults `0x11`, `0x22`; the frame gets `[99, 0x22]`
and the cursor ends at `4 + 1 + 4 = 9`. -/
theorem call_builds_frame_witness :
    ZCall exCallMachine [2, 99] = some { exCallMachine with
      seq := { mem := exCallMem, pos := 2 * 2 + 1 + 2 * 2 },
      stack := exCallMachine.stack ++
        [{ addr := 2 * 2, retAddr := 1, locals := [99] ++ [0x22] }] } :=
  call_builds_frame exCallMachine 2 [99] [0x11, 0x22] (by decide) (by decide) (by decide)
    (by decide) (by decide) (by decide)

theorem readWord_mem (s s1 : ZMemorySequential) (w : Nat) (h : ReadWord s = some (w, s1)) :
    s1.mem = s.mem := by
  unfold ReadWord at h
  cases hw : WordAt s.mem s.pos with
  | none => simp [hw] at h
  | some x => simp [hw] at h; rw [← h.2]

theorem readLocals_mem : ∀ (n i : Nat) (locals : List Nat) (s : ZMemorySequential)
    (r : List Nat) (s1 : ZMemorySequential),
    readLocals n i locals s = some (r, s1) → s1.mem = s.mem := by
  intro n
  induction n with
  | zero => intro i locals s r s1 h; simp [readLocals] at h; rw [← h.2]
  | succ n ih =>
    intro i locals s r s1 h
    unfold readLocals at h
    cases hw : ReadWord s with
    | none => simp [hw] at h
    | some p =>
      obtain ⟨w, s2⟩ := p
      simp only [hw, Option.bind_eq_bind, Option.some_bind] at h
      by_cases hi : i < locals.length
      · rw [if_pos hi] at h
        rw [ih _ _ _ _ _ h, readWord_mem s s2 w hw]
      · rw [if_neg hi] at h; exact absurd h (by simp)

theorem newZRoutine_inv (s s1 : ZMemorySequential) (ra : Nat) (r : ZRoutine)
    (h : NewZRoutine s ra = some (r, s1)) : r.retAddr = ra ∧ s1.mem = s.mem := by
  unfold NewZRoutine at h
  by_cases hp : IsPackedAddress s.pos = true
  · simp only [hp, Bool.not_true, Bool.false_eq_true, if_false] at h
    cases hb : ReadByte s with
    | none => simp [hb] at h
    | some p =>
      obtain ⟨n, s2⟩ := p
      have hm2 : s2.mem = s.mem := by
        unfold ReadByte at hb
        cases hx : ByteAt s.mem s.pos with
        | none => simp [hx] at hb
        | some x => simp [hx] at hb; rw [← hb.2]
      simp only [hb, Option.bind_eq_bind, Option.some_bind] at h
      cases hl : readLocals n 0 (List.replicate n 0) s2 with
      | none => simp [hl] at h
      | some q =>
        obtain ⟨locals, s3⟩ := q
        simp only [hl, Option.some_bind, Option.pure_def, Option.some.injEq, Prod.mk.injEq] at h
        refine ⟨by rw [← h.1], ?_⟩
        rw [← h.2, readLocals_mem _ _ _ _ _ _ hl, hm2]
  · simp [hp] at h

/-- A successful `ZCall` to a non-zero routine address pushes one frame that
returns to the cursor position of the call, and leaves memory alone. -/
theorem zcall_inv (zm zm1 : ZMachine) (ops : List Nat) (a : Nat)
    (hop : ops[0]? = some a) (ha : PackedAddress a ≠ 0) (hcall : ZCall zm ops = some zm1) :
    ∃ r pos1, r.retAddr = zm.seq.pos ∧
      zm1 = { zm with seq := { mem := zm.seq.mem, pos := pos1 }, stack := zm.stack ++ [r] } := by
  unfold ZCall at hcall
  simp only [hop, Option.bind_eq_bind, Option.some_bind] at hcall
  cases hnew : NewZRoutine { mem := zm.seq.mem, pos := PackedAddress a } zm.seq.pos with
  | none => simp [hnew] at hcall
  | some p =>
    obtain ⟨r, s1⟩ := p
    obtain ⟨hr, hm⟩ := newZRoutine_inv _ _ _ _ hnew
    have hne : (PackedAddress a == 0) = false := by simpa using ha
    simp only [hnew, Option.some_bind, hne, Bool.false_eq_true, if_false, ZStack.Push,
      setTop_concat] at hcall
    obtain ⟨m1, p1⟩ := s1
    simp only at hm
    subst hm
    by_cases hl : ops.length > 1
    · rw [if_pos hl] at hcall
      simp only [List.drop_one] at hcall
      cases hc : copyOperands ops.tail 0 r.locals with
      | none => simp [hc] at hcall
      | some locals =>
        simp only [hc, Option.some_bind, Option.pure_def, Option.some.injEq] at hcall
        exact ⟨{ r with locals := locals }, p1, hr, hcall.symm⟩
    · rw [if_neg hl] at hcall
      simp only [Option.pure_def, Option.some.injEq] at hcall
      exact ⟨r, p1, hr, hcall.symm⟩

theorem take_set_self (l : ZStack) (k : Nat) (x : ZRoutine) :
    (l.set k x).take k = l.take k := by
  rw [List.set_take, List.set_eq_of_length_le (List.length_take_le k l)]

theorem storeVarAt_inv (zm zm2 : ZMachine) (n v : Nat) (h : StoreVarAt zm n v = some zm2) :
    zm2.seq.pos = zm.seq.pos ∧ zm2.stack.length = zm.stack.length ∧
      zm2.stack.take (zm.stack.length - 1) = zm.stack.take (zm.stack.length - 1) := by
  unfold StoreVarAt at h
  by_cases h0 : (n == 0) = true
  · rw [if_pos h0] at h
    cases ht : ZStack.Top zm.stack with
    | none => simp [ht] at h
    | some top =>
      simp only [ht, Option.bind_eq_bind, Option.some_bind, Option.pure_def,
        Option.some.injEq] at h
      subst h
      simp [ZStack.setTop, take_set_self]
  · rw [if_neg h0] at h
    by_cases h16 : n < 0x10
    · rw [if_pos h16] at h
      cases ht : ZStack.Top zm.stack with
      | none => simp [ht] at h
      | some top =>
        simp only [ht, Option.bind_eq_bind, Option.some_bind] at h
        by_cases hl : n - 1 < top.locals.length
        · rw [if_pos hl] at h
          simp only [Option.pure_def, Option.some.injEq] at h
          subst h
          simp [ZStack.setTop, take_set_self]
        · rw [if_neg hl] at h; exact absurd h (by simp)
    · rw [if_neg h16] at h
      cases hw : WriteWordAt zm.seq.mem (globalAddr zm n) v with
      | none => simp [hw] at h
      | some m =>
        simp only [hw, Option.bind_eq_bind, Option.some_bind, Option.pure_def,
          Option.some.injEq] at h
        subst h
        simp

/-- C10. After a successful `ZCall` to a non-zero routine address from cursor
position `p`, `ZReturn v` behaves as `StoreReturn v` on the machine before the
call: it stores `v` into the variable named by the byte at `p`, resolved
against the caller's stack, and leaves the cursor at exactly `p + 1`; the
stack has as many frames as before the call and those below the top are
unchanged. -/
theorem call_then_return (zm zm1 : ZMachine) (ops : List Nat) (a v : Nat)
    (hop : ops[0]? = some a) (ha : PackedAddress a ≠ 0) (hcall : ZCall zm ops = some zm1)
    (h32 : zm.seq.pos + 1 < 2 ^ 32) :
    ZReturn zm1 v = StoreReturn zm v ∧
    (∀ var, zm.seq.mem[zm.seq.pos]? = some var →
      ZReturn zm1 v =
        StoreVarAt { zm with seq := { mem := zm.seq.mem, pos := zm.seq.pos + 1 } } var v) ∧
    (∀ zm2, ZReturn zm1 v = some zm2 →
      zm2.seq.pos = zm.seq.pos + 1 ∧ zm2.stack.length = zm.stack.length ∧
      zm2.stack.take (zm.stack.length - 1) = zm.stack.take (zm.stack.length - 1)) := by
  obtain ⟨r, pos1, hr, rfl⟩ := zcall_inv zm zm1 ops a hop ha hcall
  have e1 : uint32 (zm.seq.pos + 1) = zm.seq.pos + 1 := by unfold uint32; omega
  have hret : ZReturn { zm with
      seq := { mem := zm.seq.mem, pos := pos1 }
      stack := zm.stack ++ [r] } v = StoreReturn zm v := by
    unfold ZReturn
    simp only [pop_concat, Option.bind_eq_bind, Option.some_bind, hr]
  have hsr : ∀ var, zm.seq.mem[zm.seq.pos]? = some var → StoreReturn zm v =
      StoreVarAt { zm with seq := { mem := zm.seq.mem, pos := zm.seq.pos + 1 } } var v := by
    intro var hvar
    unfold StoreReturn
    rw [readByte_some zm.seq var hvar]
    simp only [Option.bind_eq_bind, Option.some_bind, e1]
  refine ⟨hret, fun var hvar => by rw [hret, hsr var hvar], fun zm2 h2 => ?_⟩
  rw [hret] at h2
  cases hb : zm.seq.mem[zm.seq.pos]? with
  | none => simp [StoreReturn, ReadByte, ByteAt, hb] at h2
  | some var =>
    rw [hsr var hb] at h2
    exact storeVarAt_inv _ zm2 var v h2

/-- Witness for C10: `call 2 99` then `ret 5` in `exCallMachine`: the store
byte at 1 names global 16, whose word (at 2) becomes 5; the cursor ends at 2
and the stack is the caller's again. -/
theorem call_then_return_witness :
    ZCall exCallMachine [2, 99] = some exCalledMachine ∧
    ZReturn exCalledMachine 5 = StoreReturn exCallMachine 5 ∧
    ZReturn exCalledMachine 5 = some
      { header := { pc := 0, globalsPos := 2, abbrTblPos := 0 },
        seq := { mem := [0x00, 0x10, 0x00, 0x05, 0x02, 0x00, 0x11, 0x00, 0x22, 0x00], pos := 2 },
        stack := [{ addr := 0, retAddr := 0, locals := [7] }],
        quitted := false } :=
  ⟨by decide,
   (call_then_return exCallMachine exCalledMachine [2, 99] 2 5 (by decide) (by decide)
      (by decide) (by decide)).1,
   by decide⟩

/-! ## Text codec: the encoder writes the code sequence -/

theorem writeCodes_append : ∀ (xs ys : List Nat) (st : EncState),
    writeCodes st (xs ++ ys) = (writeCodes st xs).bind (fun t => writeCodes t ys) := by
  intro xs
  induction xs with
  | nil => intro ys st; simp [writeCodes]
  | cons x xs ih =>
    intro ys st
    simp only [List.cons_append, writeCodes, Option.bind_eq_bind]
    cases writeChar st x with
    | none => simp
    | some t => simp [ih]

theorem indexByte_code (row : List Nat) (ch : Nat) (hlen : row.length = 26) :
    byte (((((row.indexOf ch : Nat) : Int) + 6) % 256).toNat) = row.indexOf ch + 6 := by
  have := @List.indexOf_le_length _ _ ch row
  unfold byte; omega

theorem encodeChar_eq (st : EncState) (ch : Nat) :
    encodeChar st ch = writeCodes st (charCodes ch) := by
  have hl0 : (alphabetRow 0).length = 26 := by decide
  have hl2 : (alphabetRow 2).length = 26 := by decide
  have hneg : ∀ n : Nat, ¬ ((n : Int) < 0) := fun n => by omega
  have hm1 : byte ((((-1 : Int) + 6) % 256).toNat) = 5 := by decide
  unfold encodeChar charCodes IndexByte
  by_cases h0 : ch ∈ alphabetRow 0
  · simp only [h0, if_true, hneg, if_false, Option.pure_def, Option.bind_eq_bind,
      Option.some_bind, indexByte_code _ ch hl0, writeCodes]
    cases writeChar st (List.indexOf ch (alphabetRow 0) + 6) <;> rfl
  · by_cases h2 : ch ∈ alphabetRow 2
    · simp only [h0, h2, if_true, hneg, if_false, Option.pure_def, Option.bind_eq_bind,
        Option.some_bind, indexByte_code _ ch hl2, writeCodes, Int.reduceNeg, Int.reduceLT]
      cases writeChar st 5 with
      | none => rfl
      | some t =>
        simp only [Option.some_bind]
        cases writeChar t (List.indexOf ch (alphabetRow 2) + 6) <;> rfl
    · simp only [h0, h2, if_true, if_false, Option.pure_def, Option.bind_eq_bind,
        Option.some_bind, writeCodes, Int.reduceNeg, Int.reduceLT, hm1]
      cases writeChar st 5 with
      | none => rfl
      | some t =>
        simp only [Option.some_bind]
        cases writeChar t 6 with
        | none => rfl
        | some t1 =>
          simp only [Option.some_bind]
          cases writeChar t1 (ch >>> 5) with
          | none => rfl
          | some t2 =>
            simp only [Option.some_bind]
            cases writeChar t2 (ch &&& 0x1F) with
            | none => rfl
            | some t3 =>
              simp only [Option.some_bind]
              cases writeChar t3 5 <;> rfl

theorem encodeChars_eq : ∀ (s : List Nat) (st : EncState),
    encodeChars st s = writeCodes st (s.flatMap charCodes) := by
  intro s
  induction s with
  | nil => intro st; simp [encodeChars, writeCodes]
  | cons c s ih =>
    intro st
    simp only [encodeChars, List.flatMap_cons, writeCodes_append, encodeChar_eq,
      Option.bind_eq_bind]
    cases writeCodes st (charCodes c) with
    | none => simp
    | some t => simp [ih]

theorem or_code5 (w c : Nat) (hw : w % 1024 = 0) (hc : c < 32) :
    w ||| uint16 (uint16 c <<< 5) = w + c * 32 := by
  have e : uint16 (uint16 c <<< 5) = c * 32 := by
    unfold uint16; rw [Nat.shiftLeft_eq]; omega
  rw [e]
  have := @Nat.mul_add_lt_is_or 10 (c * 32) (by omega) (w / 1024)
  rw [show (2 : Nat) ^ 10 * (w / 1024) = w by omega] at this
  exact this.symm

theorem or_code0 (w c : Nat) (hw : w % 32 = 0) (hc : c < 32) :
    w ||| uint16 (uint16 c) = w + c := by
  have e : uint16 (uint16 c) = c := by unfold uint16; omega
  rw [e]
  have := @Nat.mul_add_lt_is_or 5 c (by omega) (w / 32)
  rw [show (2 : Nat) ^ 5 * (w / 32) = w by omega] at this
  exact this.symm

theorem shl_code10 (c : Nat) (hc : c < 32) : uint16 (uint16 c <<< 10) = c * 1024 := by
  unfold uint16; rw [Nat.shiftLeft_eq]; omega

theorem writeChar_pack (pre : List Nat) (c : Nat) (hlen : pre.length < 6)
    (hc : c < 32) :
    writeChar (packState pre) c = some (packState (pre ++ [c])) := by
  match pre, hlen with
  | [], _ =>
    simp [packState, writeChar, byte]
    exact shl_code10 c hc
  | [a], _ =>
    simp [packState, writeChar, byte]
    exact or_code5 _ c (by omega) hc
  | [a, b], _ =>
    simp [packState, writeChar, byte]
    exact or_code0 _ c (by omega) hc
  | [a, b, d], _ =>
    simp [packState, writeChar, byte]
    exact shl_code10 c hc
  | [a, b, d, e], _ =>
    simp [packState, writeChar, byte]
    exact or_code5 _ c (by omega) hc
  | [a, b, d, e, f], _ =>
    simp [packState, writeChar, byte]
    exact or_code0 _ c (by omega) hc
  | _ :: _ :: _ :: _ :: _ :: _ :: _, h => simp at h; omega

theorem writeCodes_pack : ∀ (cs pre : List Nat), pre.length + cs.length ≤ 6 →
    (∀ c ∈ cs, c < 32) → writeCodes (packState pre) cs = some (packState (pre ++ cs)) := by
  intro cs
  induction cs with
  | nil => intro pre _ _; simp [writeCodes]
  | cons c cs ih =>
    intro pre hlen hc
    simp only [List.length_cons] at hlen
    have h1 := writeChar_pack pre c (by omega) (hc c (List.mem_cons_self _ _))
    have h2 := ih (pre ++ [c]) (by simp; omega) (fun x hx => hc x (List.mem_cons_of_mem _ hx))
    simp only [writeCodes, h1, Option.bind_eq_bind, Option.some_bind, h2, List.append_assoc,
      List.singleton_append]

/-- The padding loop fills the free slots with the code 5; six iterations
are always enough. -/
theorem padLoop_eq : ∀ (n fuel : Nat) (pre : List Nat), pre.length + n = 6 → n ≤ fuel →
    padLoop fuel (packState pre) = some (packState (pre ++ List.replicate n 5)) := by
  intro n
  induction n with
  | zero =>
    intro fuel pre hlen _
    have hidx : ¬ (packState pre).curWordIdx < encodedZstringLen := by
      simp only [packState, encodedZstringLen]; omega
    cases fuel <;> simp [padLoop, hidx]
  | succ n ih =>
    intro fuel pre hlen hf
    obtain ⟨f, rfl⟩ : ∃ f, fuel = f + 1 := ⟨fuel - 1, by omega⟩
    have hidx : (packState pre).curWordIdx < encodedZstringLen := by
      simp only [packState, encodedZstringLen]; omega
    have h1 := writeChar_pack pre 5 (by omega) (by norm_num)
    have h2 := ih f (pre ++ [5]) (by simp; omega) (by omega)
    simp only [padLoop, hidx, if_true, h1, Option.bind_eq_bind, Option.some_bind, h2,
      List.append_assoc, List.singleton_append, List.replicate_succ]

theorem or_terminator (w : Nat) (hw : w < 32768) : w ||| uint16 (1 <<< 15) = w + 32768 := by
  have e : uint16 (1 <<< 15) = 2 ^ 15 * 1 := by decide
  rw [e, Nat.lor_comm, ← Nat.mul_add_lt_is_or (by omega) 1]
  omega

/-- The two words of `ZStringEncode`, for a string whose code sequence has
at most six codes, each below 32: the codes followed by pad codes 5, three
per word, with bit 15 set on the second word. -/
theorem zstringEncode_eq (what cs : List Nat) (hlen : (zcodes what).length ≤ 6)
    (hlt : ∀ c ∈ zcodes what, c < 32)
    (hcs : cs = zcodes what ++ List.replicate (6 - (zcodes what).length) 5) :
    ZStringEncode what = some
      [cs.getD 0 0 * 1024 + cs.getD 1 0 * 32 + cs.getD 2 0,
       cs.getD 3 0 * 1024 + cs.getD 4 0 * 32 + cs.getD 5 0 + 32768] := by
  have h0 : ({ ret := List.replicate encodedZstringLen 0, curWordIdx := 0, offset := 10 } :
      EncState) = packState [] := by decide
  have h1 := writeCodes_pack (zcodes what) [] (by simpa using hlen) hlt
  have h2 := padLoop_eq (6 - (zcodes what).length) 6 (zcodes what) (by omega) (by omega)
  have hb : ∀ i, cs.getD i 0 < 32 := by
    intro i
    rw [List.getD_eq_getElem?_getD]
    cases hg : cs[i]? with
    | none => simp
    | some x =>
      have hx : x ∈ cs := List.getElem?_mem hg
      rw [hcs] at hx
      rcases List.mem_append.mp hx with h | h
      · simpa using hlt x h
      · rw [(List.mem_replicate.mp h).2]; simp
  have h3 := hb 3
  have h4 := hb 4
  have h5 := hb 5
  unfold ZStringEncode
  simp only [h0, encodeChars_eq, Option.bind_eq_bind]
  rw [show (ToLower what).flatMap charCodes = zcodes what from rfl]
  simp only [List.nil_append] at h1
  rw [h1, Option.some_bind, h2, Option.some_bind, ← hcs]
  simp only [packState, encodedZstringLen, Nat.reduceSub, List.getElem?_cons_succ,
    List.getElem?_cons_zero, Option.some_bind, Option.pure_def, List.set_cons_succ,
    List.set_cons_zero]
  rw [or_terminator _ (by omega)]

/-! ## Text codec: the decoder reads the code sequence back -/

theorem word_codes (c0 c1 c2 t : Nat) (h0 : c0 < 32) (h1 : c1 < 32) (h2 : c2 < 32)
    (ht : t = 0 ∨ t = 32768) :
    ((c0 * 1024 + c1 * 32 + c2 + t) >>> 10) &&& 0x1F = c0 ∧
    ((c0 * 1024 + c1 * 32 + c2 + t) >>> 5) &&& 0x1F = c1 ∧
    ((c0 * 1024 + c1 * 32 + c2 + t) >>> 0) &&& 0x1F = c2 := by
  have e : ∀ x, x &&& 0x1F = x % 32 := fun x => Nat.and_pow_two_sub_one_eq_mod x 5
  simp only [e, Nat.shiftRight_eq_div_pow]
  rcases ht with rfl | rfl <;> refine ⟨?_, ?_, ?_⟩ <;> omega

theorem bit15_test (w : Nat) : (w &&& 0x8000 == 0) = decide (w / 32768 % 2 = 0) := by
  have h := Nat.and_two_pow w 15
  rw [Nat.testBit_to_div_mod] at h
  have e : (0x8000 : Nat) = 2 ^ 15 := by norm_num
  rw [e, h]
  by_cases hb : w / 2 ^ 15 % 2 = 1
  · have : ¬ w / 32768 % 2 = 0 := by norm_num at hb; omega
    simp [hb, this]
  · have : w / 32768 % 2 = 0 := by norm_num at hb; omega
    simp [hb, this]

theorem decodeWords_done (header : ZHeader) (fuel : Nat) (zmem : ZMemorySequential)
    (data : Nat) (st : DecState) (h : (data &&& 0x8000 == 0) = false) :
    decodeWords header fuel zmem data st = some (st, zmem) := by
  cases fuel <;> simp [decodeWords, h]

theorem stepsTo_append (header : ZHeader) (mem : ZMemory) :
    ∀ (xs ys : List Nat) (st st1 st2 : DecState),
    stepsTo header mem st xs st1 → stepsTo header mem st1 ys st2 →
    stepsTo header mem st (xs ++ ys) st2 := by
  intro xs
  induction xs with
  | nil => intro ys st st1 st2 h1 h2; simp only [stepsTo] at h1; subst h1; simpa using h2
  | cons x xs ih =>
    intro ys st st1 st2 h1 h2
    obtain ⟨t, ht, hrest⟩ := h1
    exact ⟨t, ht, ih ys t st1 st2 hrest h2⟩

/-- Decoding two consecutive words, the second of which carries the
terminator bit, runs the six codes through the inner loop body and leaves
the cursor four bytes further. -/
theorem decodeWords_two (header : ZHeader) (mem : ZMemory) (pos fuel : Nat)
    (c0 c1 c2 c3 c4 c5 : Nat) (st st6 : DecState)
    (h0 : c0 < 32) (h1 : c1 < 32) (h2 : c2 < 32) (h3 : c3 < 32) (h4 : c4 < 32) (h5 : c5 < 32)
    (hw0 : WordAt mem pos = some (c0 * 1024 + c1 * 32 + c2))
    (hw1 : WordAt mem (pos + 2) = some (c3 * 1024 + c4 * 32 + c5 + 32768))
    (h32 : pos + 4 < 2 ^ 32)
    (hsteps : stepsTo header mem st [c0, c1, c2, c3, c4, c5] st6) :
    decodeWords header (fuel + 2) { mem := mem, pos := pos } 0 st =
      some (st6, { mem := mem, pos := pos + 4 }) := by
  obtain ⟨s1, hs1, s2, hs2, s3, hs3, s4, hs4, s5, hs5, s6, hs6, hend⟩ := hsteps
  simp only [stepsTo] at hend
  subst hend
  obtain ⟨a0, a1, a2⟩ := word_codes c0 c1 c2 0 h0 h1 h2 (Or.inl rfl)
  obtain ⟨b0, b1, b2⟩ := word_codes c3 c4 c5 32768 h3 h4 h5 (Or.inr rfl)
  simp only [Nat.add_zero] at a0 a1 a2
  have e2 : uint32 (pos + 2) = pos + 2 := by unfold uint32; omega
  have e4 : uint32 (pos + 2 + 2) = pos + 4 := by unfold uint32; omega
  have t0 : ((0 : Nat) &&& 0x8000 == 0) = true := by decide
  have t1 : (c0 * 1024 + c1 * 32 + c2 &&& 0x8000 == 0) = true := by
    rw [bit15_test]; simp; omega
  have t2 : (c3 * 1024 + c4 * 32 + c5 + 32768 &&& 0x8000 == 0) = false := by
    rw [bit15_test]; simp; omega
  have r1 : ReadWord { mem := mem, pos := pos } =
      some (c0 * 1024 + c1 * 32 + c2, { mem := mem, pos := pos + 2 }) := by
    simp [ReadWord, hw0, e2]
  have r2 : ReadWord { mem := mem, pos := pos + 2 } =
      some (c3 * 1024 + c4 * 32 + c5 + 32768, { mem := mem, pos := pos + 4 }) := by
    simp [ReadWord, hw1, e4]
  rw [decodeWords]
  simp only [t0, if_true, r1, Option.bind_eq_bind, Option.some_bind, a0, a1, a2, hs1, hs2, hs3]
  rw [decodeWords]
  simp only [t1, if_true, r2, Option.bind_eq_bind, Option.some_bind, b0, b1, b2, hs4, hs5, hs6]
  exact decodeWords_done header fuel _ _ _ t2

theorem row0_facts : ∀ ch ∈ alphabetRow 0,
    (alphabetRow 0)[(alphabetRow 0).indexOf ch]? = some ch ∧
    (alphabetRow 0).indexOf ch + 6 < 32 ∧ ¬ (65 ≤ ch ∧ ch ≤ 90) := by
  decide

theorem row2_facts : ∀ ch ∈ alphabetRow 2,
    ch ∉ alphabetRow 0 ∧ (alphabetRow 2)[(alphabetRow 2).indexOf ch]? = some ch ∧
    (alphabetRow 2).indexOf ch + 6 < 32 ∧ ¬ (65 ≤ ch ∧ ch ≤ 90) ∧
    (ch ≠ 32 → (alphabetRow 2).indexOf ch ≠ 0) := by
  decide

theorem alphabets_rows :
    Alphabets[0]? = some (alphabetRow 0) ∧ Alphabets[2]? = some (alphabetRow 2) := by
  decide

/-- From a state with no pending abbreviation, escape or shift, the codes of
a character of row 0, or of row 2 apart from its entry 0, decode to that
character and lead to such a state again. -/
theorem stepsTo_char (header : ZHeader) (mem : ZMemory) (ret : List Nat) (sy afp ch : Nat)
    (hch : ch ∈ alphabetRow 0 ∨ (ch ∈ alphabetRow 2 ∧ ch ≠ 32)) :
    stepsTo header mem
      { ret := ret, alphabet := 0, shiftLock := 0, synonimFlag := false, synonim := sy,
        asciiPart := 0, asciiFirstPart := afp }
      (charCodes ch)
      { ret := ret ++ [ch], alphabet := 0, shiftLock := 0, synonimFlag := false, synonim := sy,
        asciiPart := 0, asciiFirstPart := afp } := by
  obtain ⟨hr0, hr2⟩ := alphabets_rows
  rcases hch with h0 | ⟨h2, hne⟩
  · obtain ⟨hget, _, _⟩ := row0_facts ch h0
    simp only [charCodes, h0, if_true, stepsTo]
    refine ⟨_, fun d => ?_, rfl⟩
    simp [decodeCode, hr0, hget]
  · obtain ⟨hn0, hget, _, _, hidx⟩ := row2_facts ch h2
    simp only [charCodes, hn0, h2, if_true, if_false, stepsTo]
    refine ⟨{ ret := ret, alphabet := 2, shiftLock := 0, synonimFlag := false, synonim := sy,
              asciiPart := 0, asciiFirstPart := afp }, fun d => ?_, _, fun d => ?_, rfl⟩
    · simp [decodeCode, byte]
    · simp [decodeCode, hr2, hget, hidx hne]

theorem stepsTo_chars (header : ZHeader) (mem : ZMemory) (sy afp : Nat) :
    ∀ (s ret : List Nat), (∀ ch ∈ s, ch ∈ alphabetRow 0 ∨ (ch ∈ alphabetRow 2 ∧ ch ≠ 32)) →
    stepsTo header mem
      { ret := ret, alphabet := 0, shiftLock := 0, synonimFlag := false, synonim := sy,
        asciiPart := 0, asciiFirstPart := afp }
      (s.flatMap charCodes)
      { ret := ret ++ s, alphabet := 0, shiftLock := 0, synonimFlag := false, synonim := sy,
        asciiPart := 0, asciiFirstPart := afp } := by
  intro s
  induction s with
  | nil => intro ret _; simp [stepsTo]
  | cons c s ih =>
    intro ret hs
    have h1 := stepsTo_char header mem ret sy afp c (hs c (List.mem_cons_self _ _))
    have h2 := ih (ret ++ [c]) (fun x hx => hs x (List.mem_cons_of_mem _ hx))
    rw [List.flatMap_cons]
    have := stepsTo_append header mem _ _ _ _ _ h1 h2
    simpa using this

/-- Pad codes decode to nothing: they only switch the alphabet row. -/
theorem stepsTo_pads (header : ZHeader) (mem : ZMemory) (ret : List Nat) (sy afp : Nat) :
    ∀ (n al : Nat), ∃ al1, stepsTo header mem
      { ret := ret, alphabet := al, shiftLock := 0, synonimFlag := false, synonim := sy,
        asciiPart := 0, asciiFirstPart := afp }
      (List.replicate n 5)
      { ret := ret, alphabet := al1, shiftLock := 0, synonimFlag := false, synonim := sy,
        asciiPart := 0, asciiFirstPart := afp } := by
  intro n
  induction n with
  | zero => intro al; exact ⟨al, by simp [stepsTo]⟩
  | succ n ih =>
    intro al
    obtain ⟨al1, h⟩ := ih 2
    refine ⟨al1, ?_⟩
    rw [List.replicate_succ]
    exact ⟨_, fun d => by simp [decodeCode, byte], h⟩

theorem list_length_six (l : List Nat) (h : l.length = 6) :
    ∃ c0 c1 c2 c3 c4 c5, l = [c0, c1, c2, c3, c4, c5] := by
  match l, h with
  | [c0, c1, c2, c3, c4, c5], _ => exact ⟨c0, c1, c2, c3, c4, c5, rfl⟩

theorem toLower_domain (s : List Nat)
    (hs : ∀ ch ∈ s, ch ∈ alphabetRow 0 ∨ (ch ∈ alphabetRow 2 ∧ ch ≠ 32)) : ToLower s = s := by
  unfold ToLower
  conv_rhs => rw [← List.map_id s]
  apply List.map_congr_left
  intro ch hch
  rcases hs ch hch with h0 | ⟨h2, _⟩
  · simp [(row0_facts ch h0).2.2]
  · simp [(row2_facts ch h2).2.2.2.1]

theorem zcodes_lt_domain (s : List Nat)
    (hs : ∀ ch ∈ s, ch ∈ alphabetRow 0 ∨ (ch ∈ alphabetRow 2 ∧ ch ≠ 32)) :
    ∀ c ∈ zcodes s, c < 32 := by
  intro c hc
  unfold zcodes at hc
  rw [toLower_domain s hs] at hc
  obtain ⟨ch, hch, hcc⟩ := List.mem_flatMap.mp hc
  rcases hs ch hch with h0 | ⟨h2, _⟩
  · have := (row0_facts ch h0).2.1
    simp [charCodes, h0] at hcc
    omega
  · obtain ⟨hn0, _, hlt, _, _⟩ := row2_facts ch h2
    simp [charCodes, hn0, h2] at hcc
    omega

/-- C1 (amended). Text codec round trip: for every string `s` made only of
characters of alphabet row 0, or of row 2 other than its entry 0 (the space,
the slot the decoder reserves for the 10-bit escape), whose code sequence
fits the six codes of the two-word buffer, `ZStringEncode s` returns two
words, and `DecodeZString` on any memory holding them consecutively, with any
header, returns exactly the lower-cased `s` and the cursor 4 bytes further. -/
theorem codec_round_trip (s : List Nat)
    (hs : ∀ ch ∈ s, ch ∈ alphabetRow 0 ∨ (ch ∈ alphabetRow 2 ∧ ch ≠ 32))
    (hfit : (zcodes s).length ≤ 6) :
    ∃ w0 w1, ZStringEncode s = some [w0, w1] ∧
      ∀ (header : ZHeader) (mem : ZMemory) (pos fuel : Nat),
        WordAt mem pos = some w0 → WordAt mem (pos + 2) = some w1 → pos + 4 < 2 ^ 32 →
        DecodeZString (fuel + 2) { mem := mem, pos := pos } header =
          some (ToLower s, { mem := mem, pos := pos + 4 }) := by
  have hlt := zcodes_lt_domain s hs
  have hlow := toLower_domain s hs
  obtain ⟨c0, c1, c2, c3, c4, c5, hcs⟩ := list_length_six
    (zcodes s ++ List.replicate (6 - (zcodes s).length) 5) (by simp; omega)
  have hb : ∀ c ∈ [c0, c1, c2, c3, c4, c5], c < 32 := by
    intro c hc
    rw [← hcs] at hc
    rcases List.mem_append.mp hc with h | h
    · exact hlt c h
    · rw [(List.mem_replicate.mp h).2]; norm_num
  have henc := zstringEncode_eq s [c0, c1, c2, c3, c4, c5] hfit hlt hcs.symm
  simp only [List.getD_cons_zero, List.getD_cons_succ] at henc
  refine ⟨_, _, henc, fun header mem pos fuel hw0 hw1 h32 => ?_⟩
  have hchars := stepsTo_chars header mem 0 0 s [] hs
  obtain ⟨al1, hpads⟩ := stepsTo_pads header mem ([] ++ s) 0 0 (6 - (zcodes s).length) 0
  have hall := stepsTo_append header mem _ _ _ _ _ hchars hpads
  have hz : s.flatMap charCodes = zcodes s := by unfold zcodes; rw [hlow]
  rw [hz, hcs] at hall
  have hdec := decodeWords_two header mem pos fuel c0 c1 c2 c3 c4 c5 _ _
    (hb c0 (by simp)) (hb c1 (by simp)) (hb c2 (by simp)) (hb c3 (by simp)) (hb c4 (by simp))
    (hb c5 (by simp)) hw0 hw1 h32 hall
  unfold DecodeZString
  have hinit : DecState.init = ⟨[], 0, 0, false, 0, 0, 0⟩ := rfl
  rw [hinit, hdec, hlow]
  simp

/-- Witness for the amended C1: the string `hi!` (four codes). -/
theorem codec_round_trip_witness :
    ∃ w0 w1, ZStringEncode [104, 105, 33] = some [w0, w1] ∧
      ∀ (header : ZHeader) (mem : ZMemory) (pos fuel : Nat),
        WordAt mem pos = some w0 → WordAt mem (pos + 2) = some w1 → pos + 4 < 2 ^ 32 →
        DecodeZString (fuel + 2) { mem := mem, pos := pos } header =
          some (ToLower [104, 105, 33], { mem := mem, pos := pos + 4 }) :=
  codec_round_trip [104, 105, 33] (by decide) (by decide)

set_option maxRecDepth 100000 in
/-- Counterexample to C1 as stated: the space (byte 32) is present in
alphabet row 2 and its encoding fits (two codes: shift 5, code 6), yet the two
words `0x14C5 0x94A5` that `ZStringEncode` returns decode to the single code
point 165, not to the space: the decoder reads the code 6 in row 2 as the
start of a 10-bit escape and takes the two following pad codes as its value. -/
theorem codec_round_trip_counterexample :
    (∀ ch ∈ [32], ch ∈ alphabetRow 0 ∨ ch ∈ alphabetRow 2) ∧
    (zcodes [32]).length ≤ 6 ∧
    ZStringEncode [32] = some [0x14C5, 0x94A5] ∧
    WordAt [0x14, 0xC5, 0x94, 0xA5] 0 = some 0x14C5 ∧
    WordAt [0x14, 0xC5, 0x94, 0xA5] 2 = some 0x94A5 ∧
    DecodeZString 2 { mem := [0x14, 0xC5, 0x94, 0xA5], pos := 0 }
        { pc := 0, globalsPos := 0, abbrTblPos := 0 } =
      some ([165], { mem := [0x14, 0xC5, 0x94, 0xA5], pos := 4 }) ∧
    ToLower [32] = [32] ∧
    DecodeZString 2 { mem := [0x14, 0xC5, 0x94, 0xA5], pos := 0 }
        { pc := 0, globalsPos := 0, abbrTblPos := 0 } ≠
      some (ToLower [32], { mem := [0x14, 0xC5, 0x94, 0xA5], pos := 4 }) := by
  decide

/-! ## Packed addresses -/

/-- C20. Packed addresses: `PackedAddress x` is `2 * x` modulo `2^32`, it is
even, and `IsPackedAddress` accepts it, for every `x`. -/
theorem packed_address_even (x : Nat) :
    PackedAddress x = (2 * x) % 2 ^ 32 ∧ PackedAddress x % 2 = 0 ∧
      IsPackedAddress (PackedAddress x) = true := by
  have h : PackedAddress x % 2 = 0 := by unfold PackedAddress uint32; omega
  refine ⟨by unfold PackedAddress uint32; omega, h, ?_⟩
  simp [IsPackedAddress, h]

/-! ## Call stack -/

/-- C12 (amended). `Pop` removes and returns the top (last-pushed) frame
whenever the stack is not empty, also when it holds exactly one frame, which
leaves the stack empty; `Pop` and `Top` fail on the empty stack. -/
theorem pop_top_stack (st : ZStack) (r : ZRoutine) :
    ZStack.Pop (ZStack.Push st r) = some (r, st) ∧ ZStack.Top (ZStack.Push st r) = some r ∧
      ZStack.Pop [r] = some (r, []) ∧ ZStack.Pop [] = none ∧ ZStack.Top [] = none := by
  refine ⟨pop_concat st r, top_concat st r, ?_, ?_, ?_⟩
  · exact pop_concat [] r
  · simp [ZStack.Pop]
  · simp [ZStack.Top]

/-- Counterexample to C12 as stated: on a stack holding exactly one frame
`Pop` does not fail; it returns the frame and leaves the stack empty. -/
theorem pop_single_frame_counterexample :
    ZStack.Pop [{ addr := 0, retAddr := 0, locals := [7] }] =
        some ({ addr := 0, retAddr := 0, locals := [7] }, []) ∧
      ZStack.Pop [{ addr := 0, retAddr := 0, locals := [7] }] ≠ none := by
  decide

/-! ## Arithmetic handlers -/

theorem storeReturn_eq (zm : ZMachine) (v var : Nat)
    (hvar : zm.seq.mem[zm.seq.pos]? = some var) (h32 : zm.seq.pos + 1 < 2 ^ 32) :
    StoreReturn zm v =
      StoreVarAt { zm with seq := { mem := zm.seq.mem, pos := zm.seq.pos + 1 } } var v := by
  have e1 : uint32 (zm.seq.pos + 1) = zm.seq.pos + 1 := by unfold uint32; omega
  unfold StoreReturn
  rw [readByte_some zm.seq var hvar]
  simp only [Option.bind_eq_bind, Option.some_bind, e1]

theorem uint16_sub (lhs rhs : Nat) (hl : lhs < 65536) (hr : rhs < 65536) :
    uint16 (lhs + 65536 - rhs) = (((lhs : Int) - (rhs : Int)) % 65536).toNat := by
  unfold uint16; omega

/-- C18. 16-bit wraparound arithmetic: when the byte at the cursor is `var`,
`ZAdd`, `ZSub` and `ZMul` on 16-bit operands are the store of
`(lhs + rhs) mod 65536`, `(lhs - rhs) mod 65536` and `(lhs * rhs) mod 65536`
into the variable `var`, with the cursor one byte further; `0xFFFF + 1`
stores 0. -/
theorem arith_wraparound (zm : ZMachine) (lhs rhs var : Nat)
    (hl : lhs < 65536) (hr : rhs < 65536)
    (hvar : zm.seq.mem[zm.seq.pos]? = some var) (h32 : zm.seq.pos + 1 < 2 ^ 32) :
    ZAdd zm lhs rhs =
      StoreVarAt { zm with seq := { mem := zm.seq.mem, pos := zm.seq.pos + 1 } } var
        ((lhs + rhs) % 65536) ∧
    ZSub zm lhs rhs =
      StoreVarAt { zm with seq := { mem := zm.seq.mem, pos := zm.seq.pos + 1 } } var
        (((lhs : Int) - (rhs : Int)) % 65536).toNat ∧
    ZMul zm lhs rhs =
      StoreVarAt { zm with seq := { mem := zm.seq.mem, pos := zm.seq.pos + 1 } } var
        ((lhs * rhs) % 65536) ∧
    ZAdd zm 0xFFFF 1 =
      StoreVarAt { zm with seq := { mem := zm.seq.mem, pos := zm.seq.pos + 1 } } var 0 ∧
    (∀ zm2, ZAdd zm lhs rhs = some zm2 ∨ ZSub zm lhs rhs = some zm2 ∨
        ZMul zm lhs rhs = some zm2 → zm2.seq.pos = zm.seq.pos + 1) := by
  have hadd : ZAdd zm lhs rhs = StoreVarAt { zm with
      seq := { mem := zm.seq.mem, pos := zm.seq.pos + 1 } } var ((lhs + rhs) % 65536) := by
    unfold ZAdd; rw [storeReturn_eq zm _ var hvar h32]; rfl
  have hsub : ZSub zm lhs rhs = StoreVarAt { zm with
      seq := { mem := zm.seq.mem, pos := zm.seq.pos + 1 } } var
        (((lhs : Int) - (rhs : Int)) % 65536).toNat := by
    unfold ZSub; rw [storeReturn_eq zm _ var hvar h32, uint16_sub lhs rhs hl hr]
  have hmul : ZMul zm lhs rhs = StoreVarAt { zm with
      seq := { mem := zm.seq.mem, pos := zm.seq.pos + 1 } } var ((lhs * rhs) % 65536) := by
    unfold ZMul; rw [storeReturn_eq zm _ var hvar h32]; rfl
  refine ⟨hadd, hsub, hmul, ?_, ?_⟩
  · unfold ZAdd; rw [storeReturn_eq zm _ var hvar h32]; rfl
  · intro zm2 h
    rcases h with h | h | h
    · rw [hadd] at h; exact (storeVarAt_inv _ zm2 var _ h).1
    · rw [hsub] at h; exact (storeVarAt_inv _ zm2 var _ h).1
    · rw [hmul] at h; exact (storeVarAt_inv _ zm2 var _ h).1

/-- Witness for C18: in `exCallMachine` the byte at the cursor names global
16, whose word is at 2; `40000 + 30000` stores `4464`, and `0xFFFF + 1`
stores 0 and moves the cursor from 1 to 2. -/
theorem arith_wraparound_witness :
    ZAdd exCallMachine 40000 30000 =
      StoreVarAt { exCallMachine with seq := { mem := exCallMem, pos := 1 + 1 } } 0x10
        ((40000 + 30000) % 65536) ∧
    ZAdd exCallMachine 0xFFFF 1 = some
      { header := { pc := 0, globalsPos := 2, abbrTblPos := 0 },
        seq := { mem := [0x00, 0x10, 0x00, 0x00, 0x02, 0x00, 0x11, 0x00, 0x22, 0x00], pos := 2 },
        stack := [{ addr := 0, retAddr := 0, locals := [7] }],
        quitted := false } :=
  ⟨(arith_wraparound exCallMachine 40000 30000 0x10 (by decide) (by decide) (by decide)
      (by decide)).1,
   by decide⟩

theorem writeWordAtE_toOption (mem : ZMemory) (addr val : Nat) :
    (WriteWordAtE mem addr val).toOption = WriteWordAt mem addr val := by
  unfold WriteWordAtE WriteWordAt WriteByteAt
  by_cases h : addr < mem.length
  · by_cases h1 : uint32 (addr + 1) < mem.length
    · simp [h, h1, Except.toOption]
    · simp [h, h1, Except.toOption]
  · simp [h, Except.toOption]

theorem storeVarAtE_toOption (zm : ZMachine) (varnum val : Nat) :
    (StoreVarAtE zm varnum val).toOption = StoreVarAt zm varnum val := by
  unfold StoreVarAtE StoreVarAt
  by_cases h0 : (varnum == 0) = true
  · cases ht : ZStack.Top zm.stack <;> simp [h0, ht, Except.toOption]
  · by_cases h16 : varnum < 0x10
    · cases ht : ZStack.Top zm.stack with
      | none => simp [h0, h16, ht, Except.toOption]
      | some top =>
        by_cases hl : varnum - 1 < top.locals.length <;>
          simp [h0, h16, ht, hl, Except.toOption]
    · have hw := writeWordAtE_toOption zm.seq.mem (globalAddr zm varnum) val
      cases he : WriteWordAtE zm.seq.mem (globalAddr zm varnum) val with
      | error m => rw [he] at hw; simp [h0, h16, he, ← hw, Except.toOption]
      | ok m => rw [he] at hw; simp [h0, h16, he, ← hw, Except.toOption]

/-- The embedding of `StoreReturn` that keeps the machine of a panic agrees
with `StoreReturn`. -/
theorem storeReturnE_toOption (zm : ZMachine) (val : Nat) :
    (StoreReturnE zm val).toOption = StoreReturn zm val := by
  unfold StoreReturnE StoreReturn
  cases hb : ReadByte zm.seq with
  | none => simp [Except.toOption]
  | some p => obtain ⟨v, s1⟩ := p; simp [storeVarAtE_toOption]

/-- With a divisor other than zero `ZDiv` and `ZMod` store the quotient and
the remainder. -/
theorem zdiv_zmod_nonzero (zm : ZMachine) (lhs rhs : Nat) (h : rhs ≠ 0) :
    (ZDiv zm lhs rhs).toOption = StoreReturn zm (uint16 (lhs / rhs)) ∧
      (ZMod zm lhs rhs).toOption = StoreReturn zm (uint16 (lhs % rhs)) := by
  have hne : (rhs == 0) = false := by simpa using h
  simp [ZDiv, ZMod, hne, storeReturnE_toOption]

/-- C19. Division and modulo by zero are fatal: `ZDiv lhs 0` and `ZMod lhs 0`
panic, for every machine and every `lhs`, and the machine the panic leaves
behind is the machine the handler was entered with: no store byte consumed,
no variable written. -/
theorem div_mod_by_zero_fatal (zm : ZMachine) (lhs : Nat) :
    ZDiv zm lhs 0 = Except.error zm ∧ ZMod zm lhs 0 = Except.error zm := by
  simp [ZDiv, ZMod]

/-! ## Stack handlers -/

theorem setTop_top (st : ZStack) (top : ZRoutine) (h : ZStack.Top st = some top) :
    ZStack.setTop st top = st := by
  have hst := top_eq_some st top h
  generalize List.take (st.length - 1) st = pre at hst
  subst hst
  exact setTop_concat pre top top

/-- `ZPull` changes nothing whenever it returns: the value sequence is put
together again from its prefix and its tail. -/
theorem zpull_unchanged (zm zm1 : ZMachine) (args : List Nat) (h : ZPull zm args = some zm1) :
    zm1 = zm := by
  unfold ZPull at h
  cases ha : args[0]? with
  | none => simp [ha] at h
  | some a0 =>
    cases ht : ZStack.Top zm.stack with
    | none => simp [ha, ht] at h
    | some top =>
      simp only [ha, ht, Option.bind_eq_bind, Option.some_bind, List.take_append_drop] at h
      by_cases hl : byte (byte a0 + 255) ≤ top.locals.length
      · rw [if_pos hl] at h
        simp only [Option.pure_def, Option.some.injEq] at h
        rw [← h, setTop_top zm.stack top ht]
      · rw [if_neg hl] at h; exact absurd h (by simp)

/-- C17, the code at the failing input: `pull 2` on `exMachine 0`, whose top
frame holds `[1, 2]`, returns the machine unchanged; the sequence is not one
element shorter. -/
theorem zpull_failing_input :
    ZPull (exMachine 0) [2] = some (exMachine 0) ∧
      (ZStack.Top (exMachine 0).stack).map (fun r => r.locals) = some [1, 2] := by
  decide

/-! ## Call to address 0 -/

theorem readLocals_some (mem : ZMemory) : ∀ (n i pos : Nat) (locals : List Nat),
    i + n ≤ locals.length → pos + 2 * n ≤ mem.length → pos + 2 * n < 2 ^ 32 →
    ∃ r, readLocals n i locals { mem := mem, pos := pos } =
      some (r, { mem := mem, pos := pos + 2 * n }) := by
  intro n
  induction n with
  | zero => intro i pos locals _ _ _; exact ⟨locals, by simp [readLocals]⟩
  | succ n ih =>
    intro i pos locals hlen hb h32
    have hw := wordAt_some mem pos (by omega) (by omega)
    have e2 : uint32 (pos + 2) = pos + 2 := by unfold uint32; omega
    have hi : i < locals.length := by omega
    obtain ⟨r, hr⟩ := ih (i + 1) (pos + 2)
      (locals.set i (uint16 (uint16 mem[pos] <<< 8) ||| uint16 mem[pos + 1]))
      (by simp; omega) (by omega) (by omega)
    refine ⟨r, ?_⟩
    simp only [readLocals, ReadWord, hw, e2, hi, if_true, Option.bind_eq_bind, Option.some_bind,
      Option.pure_def, hr]
    congr 3
    ring

/-- A routine header that fits in memory at address 0 is read into a frame. -/
theorem newZRoutine_zero (mem : ZMemory) (ra n : Nat) (hn : mem[0]? = some n)
    (hb : 1 + 2 * n ≤ mem.length) (h32 : 1 + 2 * n < 2 ^ 32) :
    ∃ r pos1, r.retAddr = ra ∧
      NewZRoutine { mem := mem, pos := 0 } ra = some (r, { mem := mem, pos := pos1 }) := by
  obtain ⟨locals, hl⟩ := readLocals_some mem n 0 1 (List.replicate n 0) (by simp) hb h32
  have e1 : uint32 (0 + 1) = 1 := by decide
  refine ⟨{ addr := 0, retAddr := ra, locals := locals }, 1 + 2 * n, rfl, ?_⟩
  unfold NewZRoutine
  have hpk : IsPackedAddress 0 = true := by decide
  simp only [hpk, Bool.not_true, Bool.false_eq_true, if_false]
  rw [readByte_some _ n (by simpa using hn)]
  simp only [Option.bind_eq_bind, Option.some_bind, e1, hl, Option.pure_def]

/-- C11 (amended). Call to address 0, in every state where the routine
header at byte address 0 can be read (byte 0 is a locals count `n` and the
`n` words after it are in bounds): `ZCall` with operand 0 equal to 0, and any
further operands, has exactly the effect of `StoreReturn 0`: it stores 0 into
the variable named by the byte at the cursor position `p` and leaves the
cursor at `p + 1`; the stack has the same number of frames afterwards and
those below the top are unchanged. The header at address 0 is read into a
frame that is pushed and popped again. -/
theorem call_zero_returns_false (zm : ZMachine) (xs : List Nat) (n : Nat)
    (hv : ValidMem zm.seq.mem) (hn : zm.seq.mem[0]? = some n)
    (hb : 1 + 2 * n ≤ zm.seq.mem.length) (h32 : zm.seq.pos + 1 < 2 ^ 32) :
    ZCall zm (0 :: xs) = StoreReturn zm 0 ∧
    (∀ var, zm.seq.mem[zm.seq.pos]? = some var →
      ZCall zm (0 :: xs) =
        StoreVarAt { zm with seq := { mem := zm.seq.mem, pos := zm.seq.pos + 1 } } var 0) ∧
    (∀ zm2, ZCall zm (0 :: xs) = some zm2 →
      zm2.seq.pos = zm.seq.pos + 1 ∧ zm2.stack.length = zm.stack.length ∧
      zm2.stack.take (zm.stack.length - 1) = zm.stack.take (zm.stack.length - 1)) := by
  have hn8 : n < 256 := hv n (List.getElem?_mem hn)
  obtain ⟨r, pos1, hr, hnew⟩ := newZRoutine_zero zm.seq.mem zm.seq.pos n hn hb (by omega)
  have hp : PackedAddress 0 = 0 := by decide
  have hcall : ZCall zm (0 :: xs) = StoreReturn zm 0 := by
    unfold ZCall
    simp only [List.getElem?_cons_zero, Option.bind_eq_bind, Option.some_bind, hp, hnew,
      beq_self_eq_true, if_true, ZReturnFalse, ZReturn, ZStack.Push, pop_concat, hr]
    rfl
  refine ⟨hcall, fun var hvar => by rw [hcall, storeReturn_eq zm 0 var hvar h32],
    fun zm2 h2 => ?_⟩
  rw [hcall] at h2
  cases hbyte : zm.seq.mem[zm.seq.pos]? with
  | none => simp [StoreReturn, ReadByte, ByteAt, hbyte] at h2
  | some var =>
    rw [storeReturn_eq zm 0 var hbyte h32] at h2
    exact storeVarAt_inv _ zm2 var 0 h2

/-- Witness for the amended C11: `call 0` in `exCallMachine`, whose byte 0 is
a locals count of 0: global 16 (the word at 2) is set to 0 and the cursor
moves from 1 to 2. -/
theorem call_zero_returns_false_witness :
    ZCall exCallMachine [0, 5] = StoreReturn exCallMachine 0 ∧
    ZCall exCallMachine [0, 5] = some
      { header := { pc := 0, globalsPos := 2, abbrTblPos := 0 },
        seq := { mem := [0x00, 0x10, 0x00, 0x00, 0x02, 0x00, 0x11, 0x00, 0x22, 0x00], pos := 2 },
        stack := [{ addr := 0, retAddr := 0, locals := [7] }],
        quitted := false } :=
  ⟨(call_zero_returns_false exCallMachine [5] 0 (by decide) (by decide) (by decide)
      (by decide)).1,
   by decide⟩

/-- Counterexample to C11 as stated: in `exShortMachine` the stack is not
empty and storing 0 into the variable named by the byte at the cursor
succeeds (global 16, cursor 1 to 2), but `call 0` reads a routine header at
address 0, whose locals count 2 runs past the 4-byte memory, and panics. -/
theorem call_zero_counterexample :
    exShortMachine.stack ≠ [] ∧
    StoreReturn exShortMachine 0 = some
      { header := { pc := 0, globalsPos := 2, abbrTblPos := 0 },
        seq := { mem := [0x02, 0x10, 0x00, 0x00], pos := 2 },
        stack := [{ addr := 0, retAddr := 0, locals := [7] }],
        quitted := false } ∧
    ZCall exShortMachine [0] = none ∧
    NewZRoutine { mem := [0x02, 0x10, 0x00, 0x00], pos := 0 } 1 = none := by
  decide

/-! ## Text decoder: the terminator word -/

theorem decodeAt_eq (header : ZHeader) (fuel : Nat) (mem : ZMemory) :
    (fun addr => (decodeWords header fuel (GetSequential mem addr) 0 DecState.init).map
      (fun r => r.1.ret)) = fun addr => DecodeZStringAt fuel mem addr header := by
  funext addr
  simp [DecodeZStringAt, DecodeZString, Option.map_map, Function.comp_def]

/-- One iteration of the outer loop of `DecodeZString`: a word is read, its
three codes are decoded, and the loop goes on from the word read. -/
theorem decodeWords_step (header : ZHeader) (fuel : Nat) (zmem : ZMemorySequential)
    (data : Nat) (st : DecState) (h : (data &&& 0x8000 == 0) = true) :
    decodeWords header (fuel + 1) zmem data st =
      (ReadWord zmem).bind (fun r =>
        (decodeWord (fun addr => DecodeZStringAt fuel zmem.mem addr header) header zmem.mem
            st r.1).bind
          (fun s3 => decodeWords header fuel r.2 r.1 s3)) := by
  rw [decodeWords]
  simp only [h, if_true, decodeAt_eq, Option.bind_eq_bind]
  cases ReadWord zmem with
  | none => rfl
  | some r =>
    obtain ⟨w, z1⟩ := r
    simp only [Option.some_bind, decodeWord, Option.bind_eq_bind, Option.bind_assoc]

theorem readWord_eq (mem : ZMemory) (pos w : Nat) (hw : WordAt mem pos = some w)
    (h32 : pos + 2 < 2 ^ 32) :
    ReadWord { mem := mem, pos := pos } = some (w, { mem := mem, pos := pos + 2 }) := by
  have e2 : uint32 (pos + 2) = pos + 2 := by unfold uint32; omega
  simp [ReadWord, hw, e2]

/-- The outer loop of `DecodeZString`, entered at position `p` when the
words at `p`, `p+2`, ... first carry the top bit at index `k`: whenever it
returns, the cursor is at `p + 2*(k+1)` and the final state is the one the
three codes of word `k` produce. -/
theorem decodeWords_position (header : ZHeader) (mem : ZMemory) (wk : Nat) :
    ∀ (k fuel p data : Nat) (st st1 : DecState) (z : ZMemorySequential),
    (data &&& 0x8000 == 0) = true →
    (∀ j, j < k → (WordAt mem (p + 2 * j)).map (fun w => w &&& 0x8000) = some 0) →
    WordAt mem (p + 2 * k) = some wk → wk &&& 0x8000 ≠ 0 → p + 2 * (k + 1) < 2 ^ 32 →
    decodeWords header fuel { mem := mem, pos := p } data st = some (st1, z) →
    z = { mem := mem, pos := p + 2 * (k + 1) } ∧
      ∃ f sk, decodeWord (fun addr => DecodeZStringAt f mem addr header) header mem sk wk =
        some st1 := by
  intro k
  induction k with
  | zero =>
    intro fuel p data st st1 z hd _ hk hset h32 hres
    cases fuel with
    | zero => simp [decodeWords, hd] at hres
    | succ f =>
      rw [decodeWords_step header f _ data st hd,
        readWord_eq mem p wk (by simpa using hk) (by omega)] at hres
      simp only [Option.some_bind] at hres
      cases hw : decodeWord (fun addr => DecodeZStringAt f mem addr header) header mem st wk with
      | none => simp [hw] at hres
      | some s3 =>
        have hbit : (wk &&& 0x8000 == 0) = false := by simpa using hset
        simp only [hw, Option.some_bind, decodeWords_done header f _ wk s3 hbit,
          Option.some.injEq, Prod.mk.injEq] at hres
        exact ⟨hres.2.symm, f, st, by rw [hw, hres.1]⟩
  | succ k ih =>
    intro fuel p data st st1 z hd hclear hk hset h32 hres
    cases fuel with
    | zero => simp [decodeWords, hd] at hres
    | succ f =>
      have h0 := hclear 0 (by omega)
      cases hw0 : WordAt mem p with
      | none => simp [hw0] at h0
      | some w =>
        simp only [Nat.mul_zero, Nat.add_zero, hw0, Option.map_some', Option.some.injEq] at h0
        have hbit : (w &&& 0x8000 == 0) = true := by simpa using h0
        rw [decodeWords_step header f _ data st hd, readWord_eq mem p w hw0 (by omega)] at hres
        simp only [Option.some_bind] at hres
        cases hw : decodeWord (fun addr => DecodeZStringAt f mem addr header) header mem st w with
        | none => simp [hw] at hres
        | some s3 =>
          simp only [hw, Option.some_bind] at hres
          have hrec := ih f (p + 2) w s3 st1 z hbit
            (fun j hj => by
              have := hclear (j + 1) (by omega)
              rw [show p + 2 * (j + 1) = p + 2 + 2 * j by ring] at this
              exact this)
            (by rw [show p + 2 + 2 * k = p + 2 * (k + 1) by ring]; exact hk)
            hset (by omega) hres
          refine ⟨?_, hrec.2⟩
          rw [hrec.1]
          congr 1
          ring

/-- C13. Decoding stops at the terminator word, inclusive: over a memory
whose words at `p`, `p+2`, ... first have their top bit set at word index `k`,
a `DecodeZString` from position `p` that completes leaves the cursor at
exactly `p + 2*(k+1)`, whatever abbreviations were expanded on the way, and
its text is the output after all three codes of word `k` have been decoded;
at least one word is read: where no word can be read, decoding fails. -/
theorem decode_stops_at_terminator (header : ZHeader) (mem : ZMemory) (fuel p k wk : Nat)
    (txt : List Nat) (z : ZMemorySequential)
    (hclear : ∀ j, j < k → (WordAt mem (p + 2 * j)).map (fun w => w &&& 0x8000) = some 0)
    (hk : WordAt mem (p + 2 * k) = some wk) (hset : wk &&& 0x8000 ≠ 0)
    (h32 : p + 2 * (k + 1) < 2 ^ 32)
    (hdone : DecodeZString fuel { mem := mem, pos := p } header = some (txt, z)) :
    z = { mem := mem, pos := p + 2 * (k + 1) } ∧
    (∃ f sk sk1, decodeWord (fun addr => DecodeZStringAt f mem addr header) header mem sk wk =
        some sk1 ∧ sk1.ret = txt) ∧
    (∀ (fuel1 : Nat) (z1 : ZMemorySequential), WordAt z1.mem z1.pos = none →
      DecodeZString fuel1 z1 header = none) := by
  unfold DecodeZString at hdone
  cases hres : decodeWords header fuel { mem := mem, pos := p } 0 DecState.init with
  | none => simp [hres] at hdone
  | some r =>
    obtain ⟨st1, z0⟩ := r
    simp only [hres, Option.map_some', Option.some.injEq, Prod.mk.injEq] at hdone
    obtain ⟨hz, f, sk, hsk⟩ := decodeWords_position header mem wk k fuel p 0 DecState.init st1 z0
      (by decide) hclear hk hset h32 hres
    refine ⟨by rw [← hdone.2, hz], ⟨f, sk, st1, hsk, hdone.1⟩, ?_⟩
    intro fuel1 z1 hnone
    unfold DecodeZString
    cases fuel1 with
    | zero => simp [decodeWords]
    | succ f1 =>
      rw [decodeWords_step header f1 z1 0 DecState.init (by decide)]
      simp [ReadWord, hnone]

/-- Witness for C13: the text at 0 of `exTextMem`: word 0 announces and
expands an abbreviation (decoded through a cursor of its own at byte 10),
word 1 carries the terminator; the text is `abhi` and the cursor ends at
`0 + 2*(1+1) = 4`. -/
theorem decode_stops_at_terminator_witness :
    DecodeZString 2 { mem := exTextMem, pos := 0 } { pc := 0, globalsPos := 0, abbrTblPos := 8 } =
      some ([97, 98, 104, 105], { mem := exTextMem, pos := 4 }) ∧
    ({ mem := exTextMem, pos := 4 } : ZMemorySequential) =
      { mem := exTextMem, pos := 0 + 2 * (1 + 1) } :=
  ⟨by decide,
   (decode_stops_at_terminator { pc := 0, globalsPos := 0, abbrTblPos := 8 } exTextMem 2 0 1
      0xB8A5 [97, 98, 104, 105] { mem := exTextMem, pos := 4 } (by decide) (by decide)
      (by decide) (by decide) (by decide)).1⟩

/-! ## Text decoder: abbreviations -/

theorem wordAt_lt (mem : ZMemory) (a w : Nat) (h : WordAt mem a = some w) : w < 65536 := by
  unfold WordAt at h
  cases h0 : mem[a]? with
  | none => simp [h0] at h
  | some b0 =>
    cases h1 : mem[uint32 (a + 1)]? with
    | none => simp [h0, h1] at h
    | some b1 =>
      simp only [h0, h1, Option.bind_eq_bind, Option.some_bind, Option.pure_def,
        Option.some.injEq] at h
      rw [← h]
      have hx : uint16 (uint16 b0 <<< 8) < 2 ^ 16 := by unfold uint16; omega
      have hy : uint16 b1 < 2 ^ 16 := by unfold uint16; omega
      exact Nat.or_lt_two_pow hx hy

/-- C14 (amended). Abbreviation lookup: outside an escape, a code `z` in
`{1, 2, 3}` only records the pending abbreviation; the following code `c`
makes the decoder read the word stored at `abbrTableBase + (z-1)*64 + c*2`
taken modulo `2^16` (the sum is formed in 16-bit arithmetic; it is the table
entry of abbreviation `(z-1)*32 + c`), decode the string at byte address
2 * that word with a cursor of its own, append the result to the output and
resume with the alphabet row reset to the shift-locked row. -/
theorem abbreviation_lookup (header : ZHeader) (mem : ZMemory) (st : DecState)
    (z c fuel : Nat) (hz1 : 1 ≤ z) (hz3 : z ≤ 3)
    (hf : st.synonimFlag = false) (ha : st.asciiPart = 0) :
    decodeCode (fun addr => DecodeZStringAt fuel mem addr header) header mem st z =
      some { st with synonimFlag := true, synonim := z } ∧
    decodeCode (fun addr => DecodeZStringAt fuel mem addr header) header mem
        { st with synonimFlag := true, synonim := z } c =
      (WordAt mem ((header.abbrTblPos + (z - 1) * 64 + c * 2) % 65536)).bind (fun w =>
        (DecodeZStringAt fuel mem (2 * w) header).bind (fun sub =>
          some { st with
            synonimFlag := false, synonim := (z - 1) * 64, ret := st.ret ++ sub,
            alphabet := st.shiftLock })) := by
  constructor
  · have h5 : ¬ z > 5 := by omega
    have h0 : ¬ z = 0 := by omega
    have h4 : z < 4 := by omega
    simp [decodeCode, hf, ha, h5, h0, h4]
  · have es : uint16 (uint16 (z + 65535) * 64) = (z - 1) * 64 := by unfold uint16; omega
    have ea : uint32 (uint16 (uint16 (header.abbrTblPos + (z - 1) * 64) + uint16 (c * 2))) =
        (header.abbrTblPos + (z - 1) * 64 + c * 2) % 65536 := by
      unfold uint32 uint16; omega
    simp only [decodeCode, if_true, es, ea, Option.bind_eq_bind, Option.pure_def]
    cases hw : WordAt mem ((header.abbrTblPos + (z - 1) * 64 + c * 2) % 65536) with
    | none => rfl
    | some w =>
      have hlt := wordAt_lt mem _ w hw
      have e2 : uint32 (uint32 w * 2) = 2 * w := by unfold uint32; omega
      simp only [Option.some_bind, e2]

set_option maxRecDepth 100000 in
/-- Witness for the amended C14: in `exAbbrMem` (table at 4) the codes 2, 0
read the entry at `4 + (2-1)*64 + 0*2 = 68`, which holds 70, and append the
text `a` stored at byte 140. -/
theorem abbreviation_lookup_witness :
    decodeCode (fun addr => DecodeZStringAt 1 exAbbrMem addr
        { pc := 0, globalsPos := 0, abbrTblPos := 4 })
        { pc := 0, globalsPos := 0, abbrTblPos := 4 } exAbbrMem
        { DecState.init with synonimFlag := true, synonim := 2 } 0 =
      (WordAt exAbbrMem ((4 + (2 - 1) * 64 + 0 * 2) % 65536)).bind (fun w =>
        (DecodeZStringAt 1 exAbbrMem (2 * w) { pc := 0, globalsPos := 0, abbrTblPos := 4 }).bind
          (fun sub => some { DecState.init with
            synonimFlag := false, synonim := (2 - 1) * 64,
            ret := DecState.init.ret ++ sub, alphabet := DecState.init.shiftLock })) ∧
    WordAt exAbbrMem 68 = some 70 ∧
    DecodeZStringAt 1 exAbbrMem 140 { pc := 0, globalsPos := 0, abbrTblPos := 4 } = some [97] :=
  ⟨(abbreviation_lookup { pc := 0, globalsPos := 0, abbrTblPos := 4 } exAbbrMem DecState.init
      2 0 1 (by decide) (by decide) (by decide) (by decide)).2,
   by decide, by decide⟩

set_option maxRecDepth 100000 in
/-- Counterexample to C14 as stated: in `exAbbrMem` (table at 4), after the
code 2 the code 0 makes the decoder read the entry at `4 + 64`, not the one
at `4 + ((2-1)*64 + 0)*2 = 4 + 128` that the claim names: the text appended
is `a` (from byte 140), where the claim's address gives `b` (from byte 142). -/
theorem abbreviation_lookup_counterexample :
    (decodeCode (fun addr => DecodeZStringAt 1 exAbbrMem addr
        { pc := 0, globalsPos := 0, abbrTblPos := 4 })
        { pc := 0, globalsPos := 0, abbrTblPos := 4 } exAbbrMem exPending 0).map
        (fun r => r.ret) = some [97] ∧
    (specAbbrevStep (fun addr => DecodeZStringAt 1 exAbbrMem addr
        { pc := 0, globalsPos := 0, abbrTblPos := 4 })
        { pc := 0, globalsPos := 0, abbrTblPos := 4 } exAbbrMem exPending 2 0).map
        (fun r => r.ret) = some [98] ∧
    DecodeZString 2 { mem := exAbbrMem, pos := 0 } { pc := 0, globalsPos := 0, abbrTblPos := 4 } =
      some ([97], { mem := exAbbrMem, pos := 2 }) := by
  decide

/-! ## Text encoder: layout and overflow -/

theorem letters_row0 : ∀ ch, ch < 123 → (65 ≤ ch ∧ ch ≤ 90) ∨ (97 ≤ ch ∧ ch ≤ 122) →
    (if 65 ≤ ch ∧ ch ≤ 90 then ch + 32 else ch) ∈ alphabetRow 0 := by
  decide

theorem zcodes_letters : ∀ (s : List Nat),
    (∀ ch ∈ s, (65 ≤ ch ∧ ch ≤ 90) ∨ (97 ≤ ch ∧ ch ≤ 122)) →
    zcodes s = (ToLower s).map (fun ch => (alphabetRow 0).indexOf ch + 6) ∧
      ∀ c ∈ zcodes s, c < 32 := by
  intro s
  induction s with
  | nil => intro _; simp [zcodes, ToLower]
  | cons a s ih =>
    intro hs
    obtain ⟨h1, h2⟩ := ih (fun x hx => hs x (List.mem_cons_of_mem _ hx))
    have ha := hs a (List.mem_cons_self _ _)
    have hrow := letters_row0 a (by omega) ha
    have hlt := (row0_facts _ hrow).2.1
    unfold zcodes at h1 h2 ⊢
    unfold ToLower at h1 h2 ⊢
    simp only [List.map_cons, List.flatMap_cons, h1]
    constructor
    · simp [charCodes, hrow]
    · intro c hc
      rcases List.mem_append.mp hc with h | h
      · simp [charCodes, hrow] at h; omega
      · exact h2 c (by rw [h1]; exact h)

theorem specLetterCode_eq (s : List Nat) (i : Nat) (hn : s.length ≤ 6) (hi : i < 6) :
    ((ToLower s).map (fun ch => (alphabetRow 0).indexOf ch + 6) ++
      List.replicate (6 - ((ToLower s).map
        (fun ch => (alphabetRow 0).indexOf ch + 6)).length) 5).getD i 0 =
      specLetterCode s i := by
  have hl : (ToLower s).length = s.length := by simp [ToLower]
  unfold specLetterCode
  rw [List.getD_eq_getElem?_getD]
  by_cases h : i < s.length
  · rw [List.getElem?_append_left (by simp [hl, h])]
    have hg : (ToLower s)[i]? = some (ToLower s)[i] := List.getElem?_eq_getElem (by omega)
    simp only [List.getElem?_map, hg, Option.map_some', Option.getD_some]
    omega
  · rw [List.getElem?_append_right (by simp [hl]; omega)]
    have hg : (ToLower s)[i]? = none := List.getElem?_eq_none (by omega)
    simp only [hg, List.length_map, hl]
    rw [List.getElem?_replicate, if_pos (by omega)]
    rfl

/-- C15. Encoder layout, padding and terminator: for every string `s` of at
most six ASCII letters, `ZStringEncode s` returns two words holding six
codes, three per word at bit offsets 10, 5, 0, where code `i` is
`specLetterCode s i` (6 + the row 0 index of the lower-cased letter, or the
pad value 5 past the end); bit 15 is clear in the first and set in the second
word. The empty string encodes to `0x14A5, 0x94A5`. -/
theorem encode_letters (s : List Nat)
    (hs : ∀ ch ∈ s, (65 ≤ ch ∧ ch ≤ 90) ∨ (97 ≤ ch ∧ ch ≤ 122)) (hn : s.length ≤ 6) :
    (∃ w0 w1, ZStringEncode s = some [w0, w1] ∧
      w0 = specLetterCode s 0 * 1024 + specLetterCode s 1 * 32 + specLetterCode s 2 ∧
      w1 = specLetterCode s 3 * 1024 + specLetterCode s 4 * 32 + specLetterCode s 5 + 32768 ∧
      (w0 >>> 10) &&& 0x1F = specLetterCode s 0 ∧ (w0 >>> 5) &&& 0x1F = specLetterCode s 1 ∧
      (w0 >>> 0) &&& 0x1F = specLetterCode s 2 ∧
      (w1 >>> 10) &&& 0x1F = specLetterCode s 3 ∧ (w1 >>> 5) &&& 0x1F = specLetterCode s 4 ∧
      (w1 >>> 0) &&& 0x1F = specLetterCode s 5 ∧
      w0 &&& 0x8000 = 0 ∧ w1 &&& 0x8000 ≠ 0) ∧
    ZStringEncode [] = some [0x14A5, 0x94A5] := by
  refine ⟨?_, by decide⟩
  obtain ⟨hz, hlt⟩ := zcodes_letters s hs
  have hlen : (zcodes s).length ≤ 6 := by rw [hz]; simpa [ToLower] using hn
  have henc := zstringEncode_eq s _ hlen hlt rfl
  have hcode : ∀ i, i < 6 →
      (zcodes s ++ List.replicate (6 - (zcodes s).length) 5).getD i 0 = specLetterCode s i := by
    intro i hi
    rw [hz]
    exact specLetterCode_eq s i hn hi
  have hb : ∀ i, i < 6 → specLetterCode s i < 32 := by
    intro i hi
    rw [← hcode i hi, List.getD_eq_getElem?_getD]
    cases hg : (zcodes s ++ List.replicate (6 - (zcodes s).length) 5)[i]? with
    | none => simp
    | some x =>
      have hx := List.getElem?_mem hg
      rcases List.mem_append.mp hx with h | h
      · simpa using hlt x h
      · rw [(List.mem_replicate.mp h).2]; simp
  simp only [hcode 0 (by norm_num), hcode 1 (by norm_num), hcode 2 (by norm_num),
    hcode 3 (by norm_num), hcode 4 (by norm_num), hcode 5 (by norm_num)] at henc
  have h0 := hb 0 (by norm_num)
  have h1 := hb 1 (by norm_num)
  have h2 := hb 2 (by norm_num)
  have h3 := hb 3 (by norm_num)
  have h4 := hb 4 (by norm_num)
  have h5 := hb 5 (by norm_num)
  obtain ⟨a0, a1, a2⟩ := word_codes _ _ _ 0 h0 h1 h2 (Or.inl rfl)
  obtain ⟨b0, b1, b2⟩ := word_codes _ _ _ 32768 h3 h4 h5 (Or.inr rfl)
  simp only [Nat.add_zero] at a0 a1 a2
  refine ⟨_, _, henc, rfl, rfl, a0, a1, a2, b0, b1, b2, ?_, ?_⟩
  · have hbit : (specLetterCode s 0 * 1024 + specLetterCode s 1 * 32 + specLetterCode s 2
        &&& 0x8000 == 0) = true := by rw [bit15_test]; simp; omega
    simpa using hbit
  · have hbit : (specLetterCode s 3 * 1024 + specLetterCode s 4 * 32 + specLetterCode s 5 + 32768
        &&& 0x8000 == 0) = false := by rw [bit15_test]; simp; omega
    simpa using hbit

/-- Witness for C15: the string `Go` encodes to `0x3285, 0x94A5`: the codes
12 (`g`), 20 (`o`) and four pads. -/
theorem encode_letters_witness :
    ZStringEncode [71, 111] = some [0x3285, 0x94A5] ∧
    specLetterCode [71, 111] 0 = 12 ∧ specLetterCode [71, 111] 1 = 20 ∧
    specLetterCode [71, 111] 2 = 5 ∧
    ∃ w0 w1, ZStringEncode [71, 111] = some [w0, w1] ∧
      w0 = specLetterCode [71, 111] 0 * 1024 + specLetterCode [71, 111] 1 * 32 +
        specLetterCode [71, 111] 2 ∧
      w1 = specLetterCode [71, 111] 3 * 1024 + specLetterCode [71, 111] 4 * 32 +
        specLetterCode [71, 111] 5 + 32768 ∧
      (w0 >>> 10) &&& 0x1F = specLetterCode [71, 111] 0 ∧
      (w0 >>> 5) &&& 0x1F = specLetterCode [71, 111] 1 ∧
      (w0 >>> 0) &&& 0x1F = specLetterCode [71, 111] 2 ∧
      (w1 >>> 10) &&& 0x1F = specLetterCode [71, 111] 3 ∧
      (w1 >>> 5) &&& 0x1F = specLetterCode [71, 111] 4 ∧
      (w1 >>> 0) &&& 0x1F = specLetterCode [71, 111] 5 ∧
      w0 &&& 0x8000 = 0 ∧ w1 &&& 0x8000 ≠ 0 :=
  ⟨by decide, by decide, by decide, by decide,
   (encode_letters [71, 111] (by decide) (by decide)).1⟩

theorem charCodes_lt (ch : Nat) (hch : ch < 256) : ∀ c ∈ charCodes ch, c < 32 := by
  have hl0 : (alphabetRow 0).length = 26 := by decide
  have hl2 : (alphabetRow 2).length = 26 := by decide
  have ea : ch &&& 0x1F = ch % 32 := Nat.and_pow_two_sub_one_eq_mod ch 5
  have eb : ch >>> 5 = ch / 32 := Nat.shiftRight_eq_div_pow ch 5
  intro c hc
  unfold charCodes at hc
  by_cases h0 : ch ∈ alphabetRow 0
  · have := List.indexOf_lt_length.mpr h0
    simp only [h0, if_true, List.mem_singleton] at hc
    omega
  · by_cases h2 : ch ∈ alphabetRow 2
    · have := List.indexOf_lt_length.mpr h2
      simp only [h0, h2, if_true, if_false, List.mem_cons, List.mem_singleton,
        List.not_mem_nil, or_false] at hc
      omega
    · simp only [h0, h2, if_false, ea, eb, List.mem_cons, List.mem_singleton,
        List.not_mem_nil, or_false] at hc
      omega

/-- One `writeChar` into the two-word buffer at slot `k < 6` succeeds,
whatever is written, and leads to slot `k + 1`. -/
theorem writeChar_slot (st : EncState) (c k : Nat) (hl : st.ret.length = 2)
    (hi : st.curWordIdx = k / 3) (ho : st.offset = 10 - 5 * ((k % 3 : Nat) : Int))
    (hk : k < 6) :
    ∃ st1, writeChar st c = some st1 ∧ st1.ret.length = 2 ∧
      st1.curWordIdx = (k + 1) / 3 ∧ st1.offset = 10 - 5 * (((k + 1) % 3 : Nat) : Int) := by
  have hidx : st.curWordIdx < st.ret.length := by omega
  unfold writeChar
  rw [List.getElem?_eq_getElem hidx]
  simp only [Option.bind_eq_bind, Option.some_bind, Option.pure_def]
  by_cases hneg : st.offset - 5 < 0
  · rw [if_pos hneg]
    refine ⟨_, rfl, ?_, ?_, ?_⟩
    · simp [hl]
    · show st.curWordIdx + 1 = (k + 1) / 3
      omega
    · show (10 : Int) = 10 - 5 * (((k + 1) % 3 : Nat) : Int)
      omega
  · rw [if_neg hneg]
    refine ⟨_, rfl, ?_, ?_, ?_⟩
    · simp [hl]
    · show st.curWordIdx = (k + 1) / 3
      omega
    · show st.offset - 5 = 10 - 5 * (((k + 1) % 3 : Nat) : Int)
      omega

/-- A sequence of `writeChar` calls from slot `k` that stays within the six
slots of the two-word buffer succeeds. -/
theorem writeCodes_slot : ∀ (cs : List Nat) (st : EncState) (k : Nat),
    st.ret.length = 2 → st.curWordIdx = k / 3 →
    st.offset = 10 - 5 * ((k % 3 : Nat) : Int) → k + cs.length ≤ 6 →
    ∃ st1, writeCodes st cs = some st1 ∧ st1.ret.length = 2 ∧
      st1.curWordIdx = (k + cs.length) / 3
  | [], st, k, hl, hi, _, _ => ⟨st, rfl, hl, by simpa using hi⟩
  | c :: rest, st, k, hl, hi, ho, hk => by
    have hk6 : k < 6 := by simp only [List.length_cons] at hk; omega
    obtain ⟨st1, h1, hl1, hi1, ho1⟩ := writeChar_slot st c k hl hi ho hk6
    obtain ⟨st2, h2, hl2, hi2⟩ := writeCodes_slot rest st1 (k + 1) hl1 hi1 ho1
      (by simp only [List.length_cons] at hk; omega)
    refine ⟨st2, ?_, hl2, ?_⟩
    · simp only [writeCodes, h1, Option.bind_eq_bind, Option.some_bind]
      exact h2
    · rw [hi2, List.length_cons]
      congr 1
      omega

/-- A `writeChar` with `curWordIdx` at the end of the two-word buffer indexes
it out of range. -/
theorem writeChar_past_end (st : EncState) (c : Nat) (hl : st.ret.length = 2)
    (hi : st.curWordIdx = 2) : writeChar st c = none := by
  have : st.ret[st.curWordIdx]? = none := by
    rw [List.getElem?_eq_none_iff]
    omega
  simp [writeChar, this]

/-- More than six `writeChar` calls into the empty two-word buffer panic. -/
theorem writeCodes_overflow (cs : List Nat) (h : 6 < cs.length) :
    writeCodes { ret := List.replicate encodedZstringLen 0, curWordIdx := 0, offset := 10 } cs =
      none := by
  have hsplit : cs = cs.take 6 ++ cs.drop 6 := by simp
  obtain ⟨st1, h1, hl1, hi1⟩ := writeCodes_slot (cs.take 6)
    { ret := List.replicate encodedZstringLen 0, curWordIdx := 0, offset := 10 } 0
    (by decide) (by decide) (by decide) (by simp)
  have h6 : (cs.take 6).length = 6 := by simp; omega
  rw [h6] at hi1
  cases hd : cs.drop 6 with
  | nil =>
    have : (cs.drop 6).length = 0 := by rw [hd]; rfl
    simp at this
    omega
  | cons c rest =>
    rw [hsplit, writeCodes_append, h1, hd]
    simp [writeCodes, writeChar_past_end st1 c hl1 (by simpa using hi1)]

/-- On ASCII bytes every rune is one byte: the loop reads every byte. -/
theorem rangeBytes_ascii : ∀ (s : List Nat), (∀ ch ∈ s, ch < 128) → rangeBytes 0 s = s
  | [], _ => rfl
  | b :: rest, h => by
    have hb : b < 128 := h b (List.mem_cons_self _ _)
    have hw : runeWidth (b :: rest) = 1 := by
      have : leadSize b = 1 := by
        unfold leadSize
        rw [if_neg (by omega), if_neg (by omega), if_neg (by omega)]
      simp [runeWidth, this]
    simp only [rangeBytes, hw]
    rw [rangeBytes_ascii rest (fun ch hc => h ch (List.mem_cons_of_mem _ hc))]

/-- On a string of ASCII bytes, where `strings.ToLower` is `ToLower`, the
encoder on arbitrary strings is `ZStringEncode`. -/
theorem zstringEncodeUtf8_ascii (s : List Nat) (hs : ∀ ch ∈ s, ch < 128) :
    ZStringEncodeUtf8 ToLower s = ZStringEncode s ∧ zcodesUtf8 ToLower s = zcodes s := by
  have hlow : ∀ ch ∈ ToLower s, ch < 128 := by
    intro ch hch
    unfold ToLower at hch
    obtain ⟨a, ha, rfl⟩ := List.mem_map.mp hch
    have := hs a ha
    split_ifs <;> omega
  unfold ZStringEncodeUtf8 ZStringEncode zcodesUtf8 zcodes
  rw [rangeBytes_ascii _ hlow]
  exact ⟨rfl, rfl⟩

/-- The upper-case letter `É` (bytes `0xC3 0x89`), lower-cased by the library
to `é` (bytes `0xC3 0xA9`), is one rune: the loop runs once, on the byte
`0xC3`, and writes the codes 5, 6, 6, 3, 5; with one padding code the two
words are `0x14C6, 0x8CA5`. -/
theorem zstringEncodeUtf8_two_byte_rune :
    rangeBytes 0 [0xC3, 0xA9] = [0xC3] ∧
    zcodesUtf8 (fun _ => [0xC3, 0xA9]) [0xC3, 0x89] = [5, 6, 6, 3, 5] ∧
    ZStringEncodeUtf8 (fun _ => [0xC3, 0xA9]) [0xC3, 0x89] = some [0x14C6, 0x8CA5] := by
  decide

/-- C16 (amended). Encoder overflow fails: for every string (any bytes,
whatever `strings.ToLower` returns for it) whose code sequence has more than
the six codes of the two-word buffer, `ZStringEncode` does not return: the
seventh `writeChar` indexes the buffer at word 2, out of range, and panics. -/
theorem encode_overflow_panics (toLower : List Nat → List Nat) (what : List Nat)
    (hlen : 6 < (zcodesUtf8 toLower what).length) :
    ZStringEncodeUtf8 toLower what = none := by
  unfold ZStringEncodeUtf8
  simp only [encodeChars_eq, Option.bind_eq_bind]
  rw [show (rangeBytes 0 (toLower what)).flatMap charCodes = zcodesUtf8 toLower what from rfl,
    writeCodes_overflow _ hlen]
  rfl

/-- Witness for the amended C16: the string `éé` (bytes `0xC3 0xA9 0xC3 0xA9`),
which lower-casing leaves as it is, has two runes and ten codes. -/
theorem encode_overflow_panics_witness :
    (zcodesUtf8 (fun s => s) [0xC3, 0xA9, 0xC3, 0xA9]).length = 10 ∧
      ZStringEncodeUtf8 (fun s => s) [0xC3, 0xA9, 0xC3, 0xA9] = none :=
  ⟨by decide, encode_overflow_panics (fun s => s) [0xC3, 0xA9, 0xC3, 0xA9] (by decide)⟩

/-- Counterexample to C16 as stated: the code sequence of `abcdefg` has
seven codes, and `ZStringEncode` does not return two words for it; it panics,
where the six-letter prefix `abcdef` encodes to `0x18E8, 0xA54B`. The same
holds on the encoder for arbitrary strings, lower-casing `abcdefg` to
itself. -/
theorem encode_overflow_counterexample :
    6 < (zcodes [97, 98, 99, 100, 101, 102, 103]).length ∧
    ZStringEncode [97, 98, 99, 100, 101, 102, 103] = none ∧
    ZStringEncode [97, 98, 99, 100, 101, 102] = some [0x18E8, 0xA54B] ∧
    6 < (zcodesUtf8 ToLower [97, 98, 99, 100, 101, 102, 103]).length ∧
    ZStringEncodeUtf8 ToLower [97, 98, 99, 100, 101, 102, 103] = none ∧
    ZStringEncodeUtf8 ToLower [97, 98, 99, 100, 101, 102] = some [0x18E8, 0xA54B] := by
  decide

/-! ## Variable 0 and the declared locals -/

theorem last_snoc (l : List Nat) (x : Nat) : (l ++ [x])[(l ++ [x]).length - 1]? = some x := by
  simp

theorem set_last_snoc (l : List Nat) (x y : Nat) :
    (l ++ [x]).set ((l ++ [x]).length - 1) y = l ++ [y] := by
  simp

theorem last_concat (decl tl : List Nat) (x : Nat) :
    (decl ++ (tl ++ [x]))[(decl ++ (tl ++ [x])).length - 1]? = some x := by
  rw [← List.append_assoc]
  exact last_snoc (decl ++ tl) x

theorem set_last_concat (decl tl : List Nat) (x y : Nat) :
    (decl ++ (tl ++ [x])).set ((decl ++ (tl ++ [x])).length - 1) y = decl ++ (tl ++ [y]) := by
  rw [← List.append_assoc, ← List.append_assoc]
  exact set_last_snoc (decl ++ tl) x y

theorem getVarAt0_onFrame (zm : ZMachine) (st : ZStack) (top : ZRoutine) (decl tl : List Nat)
    (x : Nat) :
    GetVarAt (onFrame zm st top (decl ++ (tl ++ [x]))) 0 =
      some (x, onFrame zm st top (decl ++ (tl ++ [x]))) := by
  simp only [GetVarAt, onFrame, beq_self_eq_true, if_true, top_concat, Option.bind_eq_bind,
    Option.some_bind, last_concat, Option.pure_def]

theorem storeVarAt0_onFrame (zm : ZMachine) (st : ZStack) (top : ZRoutine)
    (locals : List Nat) (v : Nat) :
    StoreVarAt (onFrame zm st top locals) 0 v = some (onFrame zm st top (locals ++ [v])) := by
  simp only [StoreVarAt, onFrame, beq_self_eq_true, if_true, top_concat, Option.bind_eq_bind,
    Option.some_bind, setTop_concat, Option.pure_def]

theorem updateVarAt0_onFrame (zm : ZMachine) (st : ZStack) (top : ZRoutine) (decl tl : List Nat)
    (x : Nat) (d : Int) :
    UpdateVarAt (onFrame zm st top (decl ++ (tl ++ [x]))) 0 d =
      some (uint16OfInt (int16 x + d),
        onFrame zm st top (decl ++ (tl ++ [uint16OfInt (int16 x + d)]))) := by
  simp only [UpdateVarAt, onFrame, beq_self_eq_true, if_true, top_concat, Option.bind_eq_bind,
    Option.some_bind, last_concat, set_last_concat, setTop_concat, Option.pure_def]

/-- A sequence of operations on variable 0, run on a frame with at least one
pushed value, keeps the declared slots and never shortens the tail. -/
theorem runVarOps0_onFrame (zm : ZMachine) (st : ZStack) (top : ZRoutine) (decl : List Nat) :
    ∀ (ops : List VarOp) (tl : List Nat) (x : Nat), (∀ op ∈ ops, op.varnum = 0) →
    ∃ tl1 x1, runVarOps (onFrame zm st top (decl ++ (tl ++ [x]))) ops =
        some (onFrame zm st top (decl ++ (tl1 ++ [x1]))) ∧ tl.length ≤ tl1.length := by
  intro ops
  induction ops with
  | nil => intro tl x _; exact ⟨tl, x, rfl, le_refl _⟩
  | cons op ops ih =>
    intro tl x hops
    have hrest : ∀ o ∈ ops, o.varnum = 0 := fun o ho => hops o (List.mem_cons_of_mem _ ho)
    have h0 := hops op (List.mem_cons_self _ _)
    cases op with
    | get n =>
      simp only [VarOp.varnum] at h0
      subst h0
      obtain ⟨tl1, x1, hr, hl⟩ := ih tl x hrest
      refine ⟨tl1, x1, ?_, hl⟩
      simp only [runVarOps, applyVarOp, getVarAt0_onFrame, Option.map_some',
        Option.bind_eq_bind, Option.some_bind, hr]
    | store n v =>
      simp only [VarOp.varnum] at h0
      subst h0
      obtain ⟨tl1, x1, hr, hl⟩ := ih (tl ++ [x]) v hrest
      refine ⟨tl1, x1, ?_, by simp at hl; omega⟩
      simp only [runVarOps, applyVarOp, storeVarAt0_onFrame, Option.bind_eq_bind,
        Option.some_bind, List.append_assoc]
      simpa only [List.append_assoc] using hr
    | update n d =>
      simp only [VarOp.varnum] at h0
      subst h0
      obtain ⟨tl1, x1, hr, hl⟩ := ih tl (uint16OfInt (int16 x + d)) hrest
      refine ⟨tl1, x1, ?_, hl⟩
      simp only [runVarOps, applyVarOp, updateVarAt0_onFrame, Option.map_some',
        Option.bind_eq_bind, Option.some_bind, hr]

theorem getVarAt_state (zm : ZMachine) (n : Nat) (r : Nat × ZMachine)
    (h : GetVarAt zm n = some r) : r.2 = zm := by
  unfold GetVarAt at h
  by_cases h0 : (n == 0) = true
  · rw [if_pos h0] at h
    cases ht : ZStack.Top zm.stack with
    | none => simp [ht] at h
    | some top =>
      cases hv : top.locals[top.locals.length - 1]? with
      | none => simp [ht, hv] at h
      | some v => simp [ht, hv] at h; rw [← h]
  · rw [if_neg h0] at h
    by_cases h16 : n < 0x10
    · rw [if_pos h16] at h
      cases ht : ZStack.Top zm.stack with
      | none => simp [ht] at h
      | some top =>
        cases hv : top.locals[n - 1]? with
        | none => simp [ht, hv] at h
        | some v => simp [ht, hv] at h; rw [← h]
    · rw [if_neg h16] at h
      cases hv : WordAt zm.seq.mem (globalAddr zm n) with
      | none => simp [hv] at h
      | some v => simp [hv] at h; rw [← h]

/-- No variable operation shortens the value sequence of the top frame. -/
theorem applyVarOp_length (zm zm1 : ZMachine) (top : ZRoutine) (op : VarOp)
    (htop : ZStack.Top zm.stack = some top) (h : applyVarOp zm op = some zm1) :
    ∃ top1, ZStack.Top zm1.stack = some top1 ∧ top.locals.length ≤ top1.locals.length := by
  obtain ⟨hdr, seq, stack, q⟩ := zm
  have hst := top_eq_some stack top htop
  generalize List.take (stack.length - 1) stack = pre at hst
  subst hst
  cases op with
  | get n =>
    simp only [applyVarOp] at h
    cases hg : GetVarAt { header := hdr, seq := seq, stack := pre ++ [top], quitted := q } n with
    | none => simp [hg] at h
    | some r =>
      have := getVarAt_state _ n r hg
      simp only [hg, Option.map_some', Option.some.injEq] at h
      rw [← h, this]
      exact ⟨top, top_concat pre top, le_refl _⟩
  | store n v =>
    simp only [applyVarOp, StoreVarAt, top_concat, setTop_concat, Option.bind_eq_bind,
      Option.some_bind, Option.pure_def] at h
    by_cases h0 : (n == 0) = true
    · rw [if_pos h0] at h
      simp only [Option.some.injEq] at h
      rw [← h]
      exact ⟨_, top_concat pre _, by simp⟩
    · rw [if_neg h0] at h
      by_cases h16 : n < 0x10
      · rw [if_pos h16] at h
        by_cases hl : n - 1 < top.locals.length
        · rw [if_pos hl] at h
          simp only [Option.some.injEq] at h
          rw [← h]
          exact ⟨_, top_concat pre _, by simp⟩
        · rw [if_neg hl] at h; exact absurd h (by simp)
      · rw [if_neg h16] at h
        cases hw : WriteWordAt seq.mem
            (globalAddr { header := hdr, seq := seq, stack := pre ++ [top], quitted := q } n)
            v with
        | none => simp [hw] at h
        | some m =>
          simp only [hw, Option.some_bind, Option.some.injEq] at h
          rw [← h]
          exact ⟨top, top_concat pre top, le_refl _⟩
  | update n d =>
    simp only [applyVarOp, UpdateVarAt, top_concat, setTop_concat, Option.bind_eq_bind,
      Option.some_bind, Option.pure_def] at h
    by_cases h0 : (n == 0) = true
    · rw [if_pos h0] at h
      cases hv : top.locals[top.locals.length - 1]? with
      | none => simp [hv] at h
      | some old =>
        simp only [hv, Option.some_bind, Option.map_some', Option.some.injEq] at h
        rw [← h]
        exact ⟨_, top_concat pre _, by simp⟩
    · rw [if_neg h0] at h
      by_cases h16 : n < 0x10
      · rw [if_pos h16] at h
        cases hv : top.locals[n - 1]? with
        | none => simp [hv] at h
        | some old =>
          simp only [hv, Option.some_bind, Option.map_some', Option.some.injEq] at h
          rw [← h]
          exact ⟨_, top_concat pre _, by simp⟩
      · rw [if_neg h16] at h
        cases hr : WordAt seq.mem
            (globalAddr { header := hdr, seq := seq, stack := pre ++ [top], quitted := q } n) with
        | none => simp [hr] at h
        | some old =>
          simp only [hr, Option.some_bind] at h
          cases hw : WriteWordAt seq.mem
              (globalAddr { header := hdr, seq := seq, stack := pre ++ [top], quitted := q } n)
              (uint16 (old + uint16OfInt d)) with
          | none => simp [hw] at h
          | some m =>
            simp only [hw, Option.some_bind, Option.map_some', Option.some.injEq] at h
            rw [← h]
            exact ⟨top, top_concat pre top, le_refl _⟩

theorem runVarOps_length : ∀ (ops : List VarOp) (zm zm1 : ZMachine) (top : ZRoutine),
    ZStack.Top zm.stack = some top → runVarOps zm ops = some zm1 →
    ∃ top1, ZStack.Top zm1.stack = some top1 ∧ top.locals.length ≤ top1.locals.length := by
  intro ops
  induction ops with
  | nil =>
    intro zm zm1 top htop h
    simp only [runVarOps, Option.some.injEq] at h
    rw [← h]
    exact ⟨top, htop, le_refl _⟩
  | cons op ops ih =>
    intro zm zm1 top htop h
    simp only [runVarOps, Option.bind_eq_bind] at h
    cases ha : applyVarOp zm op with
    | none => simp [ha] at h
    | some zm2 =>
      simp only [ha, Option.some_bind] at h
      obtain ⟨top2, ht2, hl2⟩ := applyVarOp_length zm zm2 top op htop ha
      obtain ⟨top1, ht1, hl1⟩ := ih zm2 zm1 top2 ht2 h
      exact ⟨top1, ht1, le_trans hl2 hl1⟩

theorem readLocals_length : ∀ (n i : Nat) (locals : List Nat) (s : ZMemorySequential)
    (r : List Nat) (s1 : ZMemorySequential),
    readLocals n i locals s = some (r, s1) → r.length = locals.length := by
  intro n
  induction n with
  | zero => intro i locals s r s1 h; simp [readLocals] at h; rw [← h.1]
  | succ n ih =>
    intro i locals s r s1 h
    unfold readLocals at h
    cases hw : ReadWord s with
    | none => simp [hw] at h
    | some p =>
      obtain ⟨w, s2⟩ := p
      simp only [hw, Option.bind_eq_bind, Option.some_bind] at h
      by_cases hi : i < locals.length
      · rw [if_pos hi] at h
        rw [ih _ _ _ _ _ h]; simp
      · rw [if_neg hi] at h; exact absurd h (by simp)

/-- A frame is created with exactly the number of slots its header declares. -/
theorem newZRoutine_locals_length (s s1 : ZMemorySequential) (ra n : Nat) (r : ZRoutine)
    (hn : s.mem[s.pos]? = some n) (h : NewZRoutine s ra = some (r, s1)) :
    r.locals.length = n := by
  unfold NewZRoutine at h
  by_cases hp : IsPackedAddress s.pos = true
  · simp only [hp, Bool.not_true, Bool.false_eq_true, if_false] at h
    rw [readByte_some s n hn] at h
    simp only [Option.bind_eq_bind, Option.some_bind] at h
    cases hl : readLocals n 0 (List.replicate n 0)
        { mem := s.mem, pos := uint32 (s.pos + 1) } with
    | none => simp [hl] at h
    | some p =>
      obtain ⟨locals, s3⟩ := p
      simp only [hl, Option.some_bind, Option.pure_def, Option.some.injEq, Prod.mk.injEq] at h
      rw [← h.1]
      simpa using readLocals_length _ _ _ _ _ _ hl
  · simp [hp] at h

/-- C21 (amended). Evaluation-stack operations stay in the tail once a value
has been pushed. On a top frame whose value sequence is the declared slots
`decl` followed by a non-empty tail `tl ++ [x]`: `GetVarAt 0` returns `x` and
changes nothing; `UpdateVarAt 0 d` replaces `x` only; `StoreVarAt 0 v`
appends `v` (also on an empty tail); any sequence of variable-0 operations
leaves `decl` as it is and the tail at least as long; no sequence of variable
operations of any kind shortens the sequence, so the tail stays non-empty;
and `NewZRoutine` creates a frame with exactly the declared number of slots. -/
theorem var0_stays_in_tail (zm : ZMachine) (st : ZStack) (top : ZRoutine)
    (decl tl : List Nat) (x : Nat) :
    GetVarAt (onFrame zm st top (decl ++ (tl ++ [x]))) 0 =
      some (x, onFrame zm st top (decl ++ (tl ++ [x]))) ∧
    (∀ d, UpdateVarAt (onFrame zm st top (decl ++ (tl ++ [x]))) 0 d =
      some (uint16OfInt (int16 x + d),
        onFrame zm st top (decl ++ (tl ++ [uint16OfInt (int16 x + d)])))) ∧
    (∀ tail v, StoreVarAt (onFrame zm st top (decl ++ tail)) 0 v =
      some (onFrame zm st top (decl ++ (tail ++ [v])))) ∧
    (∀ ops : List VarOp, (∀ op ∈ ops, op.varnum = 0) →
      ∃ tl1 x1, runVarOps (onFrame zm st top (decl ++ (tl ++ [x]))) ops =
        some (onFrame zm st top (decl ++ (tl1 ++ [x1]))) ∧ tl.length ≤ tl1.length) ∧
    (∀ (ops : List VarOp) (zm1 : ZMachine),
      runVarOps (onFrame zm st top (decl ++ (tl ++ [x]))) ops = some zm1 →
      ∃ top1, ZStack.Top zm1.stack = some top1 ∧
        decl.length + tl.length + 1 ≤ top1.locals.length) ∧
    (∀ (s s1 : ZMemorySequential) (ra n : Nat) (r : ZRoutine), s.mem[s.pos]? = some n →
      NewZRoutine s ra = some (r, s1) → r.locals.length = n) := by
  refine ⟨getVarAt0_onFrame zm st top decl tl x, updateVarAt0_onFrame zm st top decl tl x,
    fun tail v => ?_, fun ops hops => runVarOps0_onFrame zm st top decl ops tl x hops,
    fun ops zm1 h => ?_, fun s s1 ra n r hn h => newZRoutine_locals_length s s1 ra n r hn h⟩
  · rw [storeVarAt0_onFrame, List.append_assoc]
  · obtain ⟨top1, ht, hl⟩ := runVarOps_length ops _ zm1
      { top with locals := decl ++ (tl ++ [x]) } (by simp [onFrame, top_concat]) h
    refine ⟨top1, ht, ?_⟩
    simp at hl
    omega

/-- Witness for the amended C21: on the frame of `exFreshMachine` after the
value 5 has been pushed, the operations get, update by -6, push 9 on
variable 0 leave the declared slots `0x11, 0x22` as they are. -/
theorem var0_stays_in_tail_witness :
    (∃ tl1 x1, runVarOps
        (onFrame exFreshMachine [{ addr := 0, retAddr := 0, locals := [7] }]
          { addr := 4, retAddr := 1, locals := [] } ([0x11, 0x22] ++ ([] ++ [5])))
        [VarOp.get 0, VarOp.update 0 (-6), VarOp.store 0 9] =
      some (onFrame exFreshMachine [{ addr := 0, retAddr := 0, locals := [7] }]
        { addr := 4, retAddr := 1, locals := [] } ([0x11, 0x22] ++ (tl1 ++ [x1]))) ∧
      ([] : List Nat).length ≤ tl1.length) ∧
    runVarOps exFreshMachine
        [VarOp.store 0 5, VarOp.get 0, VarOp.update 0 (-6), VarOp.store 0 9] =
      some { exFreshMachine with
        stack := [{ addr := 0, retAddr := 0, locals := [7] },
                  { addr := 4, retAddr := 1, locals := [0x11, 0x22, 65535, 9] }] } :=
  ⟨(var0_stays_in_tail exFreshMachine [{ addr := 0, retAddr := 0, locals := [7] }]
      { addr := 4, retAddr := 1, locals := [] } [0x11, 0x22] [] 5).2.2.2.1
      [VarOp.get 0, VarOp.update 0 (-6), VarOp.store 0 9] (by decide),
   by decide⟩

/-- Counterexample to C21 as stated: the top frame of `exFreshMachine` is
the frame `NewZRoutine` creates from the header at byte 4, with 2 declared
locals and nothing pushed. `GetVarAt 0` returns `0x22`, the value of local
slot 2, as the stack top, and `UpdateVarAt 0 1` changes that slot to `0x23`. -/
theorem var0_fresh_frame_counterexample :
    NewZRoutine { mem := exCallMem, pos := 4 } 1 =
      some ({ addr := 4, retAddr := 1, locals := [0x11, 0x22] }, { mem := exCallMem, pos := 9 }) ∧
    ZStack.Top exFreshMachine.stack = some { addr := 4, retAddr := 1, locals := [0x11, 0x22] } ∧
    (GetVarAt exFreshMachine 0).map (fun r => r.1) = some 0x22 ∧
    (GetVarAt exFreshMachine 2).map (fun r => r.1) = some 0x22 ∧
    (UpdateVarAt exFreshMachine 0 1).map (fun r => (r.1, ZStack.Top r.2.stack)) =
      some (0x23, some { addr := 4, retAddr := 1, locals := [0x11, 0x23] }) := by
  decide

end Gork
